import Mathlib

/-!
# idolove-pdf: page-range resolution and the four document pipelines

A shallow embedding of `script.js` (the `toolImplementations` table): the
range parser inlined in `split-pdf` and `delete-pages`, and the `process`
functions of `merge-pdf`, `compress-pdf`, `split-pdf` and `delete-pages`.

Conventions of the embedding.

* A JavaScript string is a `List Char`.
* A JavaScript number is represented only when it is an integer of magnitude at
  most `Number.MAX_SAFE_INTEGER`; on that range `i - 1`, `i++` and `<=` are exact.
  Any other numeric value (fraction, exponent form, radix prefix, `Infinity`, a
  numeral beyond the safe range) is `JSNumber.other`, and a run that would
  compute with it is outside the embedding (`none`).
* A document is the list of its pages, and `PDFDocument.load` gives that list.
  A run that reaches `save()` ends with the pages the document has at that
  call (`Outcome.saved`); the file written from them is `save`, which holds
  these pages, or one blank page when the document has none, as pdf-lib's
  `save()` does with its default options. `Run.download` is the file a run hands
  to `createDownloadLink`.
  The calls made on the document model are recorded in order, so that "before
  the document is loaded" can be stated.
-/

namespace IdolovePdf

/-! ## JavaScript strings -/

abbrev JSString := List Char

/-- White space and line terminators, the characters removed by
`String.prototype.trim` and skipped by `Number` around a numeric literal. -/
def isWhiteSpace (c : Char) : Bool :=
  decide (c.toNat ∈ [9, 10, 11, 12, 13, 32, 160, 5760, 8232, 8233, 8239, 8287, 12288, 65279])
    || (decide (8192 ≤ c.toNat) && decide (c.toNat ≤ 8202))

/-- Decimal digit `0`..`9`. -/
def isDecimalDigit (c : Char) : Bool :=
  decide (48 ≤ c.toNat) && decide (c.toNat ≤ 57)

/-- Hexadecimal digit. -/
def isHexDigit (c : Char) : Bool :=
  isDecimalDigit c || (decide (97 ≤ c.toNat) && decide (c.toNat ≤ 102))
    || (decide (65 ≤ c.toNat) && decide (c.toNat ≤ 70))

/-- The method `String.prototype.trim`. -/
def trim (s : JSString) : JSString :=
  ((s.dropWhile isWhiteSpace).reverse.dropWhile isWhiteSpace).reverse

/-- The method `String.prototype.split` with a one-character separator: the
pieces between the occurrences of `sep`; a string without `sep` (the empty
string too) gives one piece. -/
def split (sep : Char) : JSString → List JSString
  | [] => [[]]
  | c :: cs =>
    if c = sep then [] :: split sep cs
    else
      match split sep cs with
      | [] => [[c]]
      | p :: ps => (c :: p) :: ps

/-- The method `String.prototype.includes` with a one-character argument. -/
def includes (s : JSString) (c : Char) : Bool := decide (c ∈ s)

/-! ## JavaScript numbers -/

/-- The value `Number.MAX_SAFE_INTEGER`, `2^53 - 1`. -/
def maxSafeInteger : Nat := 9007199254740991

/-- The result of `Number(string)`, as far as the embedding represents it. -/
inductive JSNumber where
  /-- The value `NaN`. -/
  | nan
  /-- An integer of magnitude at most `maxSafeInteger`. -/
  | int (z : Int)
  /-- Any other numeric value: not represented. -/
  | other
  deriving DecidableEq, Repr

/-- Value of a string of decimal digits, most significant first. -/
def digitsValue (ds : JSString) : Nat :=
  ds.foldl (fun acc c => 10 * acc + (c.toNat - 48)) 0

/-- A non-empty string of decimal digits. -/
def isDecimalDigits (ds : JSString) : Bool :=
  !ds.isEmpty && ds.all isDecimalDigit

/-- The grammar production `ExponentPart`: `e` or `E`, an optional sign, digits. -/
def isExponentPart : JSString → Bool
  | e :: rest =>
    (e = 'e' || e = 'E') &&
      (match rest with
        | s :: ds => if s = '+' || s = '-' then isDecimalDigits ds else isDecimalDigits rest
        | [] => false)
  | [] => false

/-- The grammar production `StrUnsignedDecimalLiteral`: `Infinity`, or digits with
an optional fraction and exponent, or a fraction starting with the point. -/
def isStrUnsignedDecimalLiteral (s : JSString) : Bool :=
  s = "Infinity".toList ||
    (let ds := s.takeWhile isDecimalDigit
     let r := s.dropWhile isDecimalDigit
     match r with
     | [] => !ds.isEmpty
     | c :: r2 =>
       if c = '.' then
         let fs := r2.takeWhile isDecimalDigit
         let r3 := r2.dropWhile isDecimalDigit
         (!ds.isEmpty || !fs.isEmpty) && (r3.isEmpty || isExponentPart r3)
       else !ds.isEmpty && isExponentPart r)

/-- The grammar production `NonDecimalIntegerLiteral`: `0x`, `0o` or `0b`
(either case) followed by digits of that radix. -/
def isNonDecimalIntegerLiteral : JSString → Bool
  | z :: x :: ds =>
    z = '0' && !ds.isEmpty &&
      (((x = 'x' || x = 'X') && ds.all isHexDigit) ||
       ((x = 'o' || x = 'O') && ds.all (fun c => decide (48 ≤ c.toNat) && decide (c.toNat ≤ 55))) ||
       ((x = 'b' || x = 'B') && ds.all (fun c => c = '0' || c = '1')))
  | _ => false

/-- The conversion `Number(s)` of a string (`StringToNumber`): white space around
the literal is skipped, the empty literal is `0`, a signed string of decimal
digits is its integer value, any other numeric literal is `other`, and anything
that is not a numeric literal is `NaN`. -/
def Number (s : JSString) : JSNumber :=
  match trim s with
  | [] => .int 0
  | c :: cs =>
    let u := if c = '+' || c = '-' then cs else c :: cs
    if isDecimalDigits u then
      if digitsValue u ≤ maxSafeInteger then
        .int (if c = '-' then -(digitsValue u : Int) else (digitsValue u : Int))
      else .other
    else if isStrUnsignedDecimalLiteral u || isNonDecimalIntegerLiteral (c :: cs) then .other
    else .nan

/-! ## The insertion-ordered `Set` -/

/-- The method `Set.prototype.add` on a set listed in insertion order: a value
already present leaves the set as it is, a new one goes to the end. -/
def setAdd (s : List Int) (x : Int) : List Int :=
  if x ∈ s then s else s ++ [x]

/-- The loop `for (let i = start; i <= end; i++) set.add(i - 1)`, by the number
`count` of iterations left; the caller passes `count = (end + 1 - start).toNat`,
the number of `i` from `start` on with `i <= end`. -/
def addRange (s : List Int) (i : Int) : Nat → List Int
  | 0 => s
  | count + 1 => addRange (setAdd s (i - 1)) (i + 1) count

/-- The number of values `i = start, start + 1, ...` with `i <= end`: the number
of iterations of `for (let i = start; i <= end; i++)`. -/
def rangeCount (start stop : Int) : Nat := (stop + 1 - start).toNat

/-! ## The document model (pdf-lib) -/

/-- A call on the document model, recorded in the order it is made. -/
inductive Call where
  /-- The call `PDFDocument.load(bytes)`. -/
  | load
  /-- The call `PDFDocument.create()`. -/
  | create
  /-- The call `copyPages(src, indices)`. -/
  | copyPages (indices : List Int)
  /-- The call `addPage(page)`. -/
  | addPage
  /-- The call `removePage(index)`. -/
  | removePage (index : Int)
  /-- The call `save()`. -/
  | save
  deriving DecidableEq, Repr

/-- The errors a pipeline ends with. -/
inductive PipelineError where
  /-- The error `Page range is required.` -/
  | rangeRequired
  /-- The error `No valid pages were selected.` (Split). -/
  | noValidPages
  /-- The error `No valid pages were selected for deletion.` (Delete). -/
  | noValidPagesForDeletion
  /-- An exception raised inside the document model or the renderer. -/
  | collaborator
  deriving DecidableEq, Repr

/-- The message of the `Error` thrown. -/
def PipelineError.message : PipelineError → String
  | .rangeRequired => "Page range is required."
  | .noValidPages => "No valid pages were selected."
  | .noValidPagesForDeletion => "No valid pages were selected for deletion."
  | .collaborator => "(raised by the document model or the renderer)"

/-- How a `process` function ends: with the pages of the output document at the
call of `save()`, or with the error thrown. The file written from these pages,
which goes to `createDownloadLink`, is `save` of them (`Run.download`). -/
inductive Outcome (π : Type) where
  | saved (pages : List π)
  | threw (e : PipelineError)
  deriving DecidableEq

/-- One run of a `process` function: the calls made on the document model and
the way the run ends. -/
structure Run (π : Type) where
  calls : List Call
  result : Outcome π
  deriving DecidableEq

/-- A page of a file written by `save()`: a page of the document, or the blank
page the document model adds to a document that has no page. -/
inductive FilePage (π : Type) where
  | page (p : π)
  | blank
  deriving DecidableEq

/-- The method `save()` of the document model, called without options as every
pipeline does: the file holds the pages of the document, and one blank page when
the document has none. -/
def save {π : Type} : List π → List (FilePage π)
  | [] => [FilePage.blank]
  | p :: ps => (p :: ps).map FilePage.page

/-- The pages of the file a run hands to `createDownloadLink`: what `save()`
writes for the document the run ends with; nothing when the run throws. -/
def Run.download {π : Type} (run : Run π) : Option (List (FilePage π)) :=
  match run.result with
  | .saved pages => some (save pages)
  | .threw _ => none

/-- The method `getPageIndices()`: `0 .. pageCount - 1`. -/
def getPageIndices {π : Type} (pdf : List π) : List Int :=
  (List.range pdf.length).map Int.ofNat

/-- The method `copyPages(src, indices)`: the pages of `src` at `indices`, in the
order of `indices`; an index that is not a page of `src` makes the call fail. -/
def copyPages {π : Type} (pdf : List π) : List Int → Option (List π)
  | [] => some []
  | i :: rest =>
    match (if 0 ≤ i then pdf[i.toNat]? else none), copyPages pdf rest with
    | some page, some pages => some (page :: pages)
    | _, _ => none

/-- The statement `copiedPages.forEach(page => doc.addPage(page))`. -/
def addPages {π : Type} (doc : List π) (copiedPages : List π) : List π :=
  copiedPages.foldl (fun d page => d ++ [page]) doc

/-! ## merge-pdf -/

/-- The loop `for (const file of files)` of `merge-pdf`. -/
def mergePdf.loop {π : Type} (mergedPdf : List π) (calls : List Call) :
    List (List π) → Run π
  | [] => ⟨calls ++ [Call.save], .saved mergedPdf⟩
  | pdf :: files =>
    match copyPages pdf (getPageIndices pdf) with
    | none => ⟨calls ++ [Call.load, Call.copyPages (getPageIndices pdf)], .threw .collaborator⟩
    | some copiedPages =>
      mergePdf.loop (addPages mergedPdf copiedPages)
        (calls ++ [Call.load, Call.copyPages (getPageIndices pdf)]
          ++ copiedPages.map (fun _ => Call.addPage))
        files

/-- The function `process(files)` of `merge-pdf`. -/
def mergePdf.process {π : Type} (files : List (List π)) : Run π :=
  mergePdf.loop [] [Call.create] files

/-! ## compress-pdf -/

/-- The object returned by `page.getViewport`. -/
structure Viewport where
  width : ℚ
  height : ℚ
  deriving DecidableEq

/-- The renderer (pdf.js and the canvas): the viewport of a page at a scale, and
the JPEG bytes obtained by rendering the page on a canvas of the viewport's size
and encoding the canvas at a quality. -/
structure Renderer (π ι : Type) where
  getViewport : π → ℚ → Viewport
  renderJpeg : π → Viewport → ℚ → ι

/-- A page of the compressed document: `addPage([width, height])` followed by
`drawImage(image, { x, y, width, height })`. -/
structure ImagePage (ι : Type) where
  width : ℚ
  height : ℚ
  image : ι
  x : ℚ
  y : ℚ
  drawWidth : ℚ
  drawHeight : ℚ
  deriving DecidableEq

/-- The method `pdf.getPage(i)` of pdf.js, with `i` counted from 1. -/
def getPage {π : Type} (pdf : List π) (i : Nat) : Option π :=
  if 1 ≤ i then pdf[i - 1]? else none

/-- The loop `for (let i = 1; i <= numPages; i++)` of `compress-pdf`, by the
number `count` of iterations left, `numPages + 1 - i`. -/
def compressPdf.loop {π ι : Type} (r : Renderer π ι) (pdf : List π) (quality : ℚ)
    (newPdf : List (ImagePage ι)) (i : Nat) : Nat → Outcome (ImagePage ι)
  | 0 => .saved newPdf
  | count + 1 =>
    match getPage pdf i with
    | none => .threw .collaborator
    | some page =>
      let viewport := r.getViewport page 1.5
      let image := r.renderJpeg page viewport quality
      let newPage : ImagePage ι :=
        ⟨viewport.width, viewport.height, image, 0, 0, viewport.width, viewport.height⟩
      compressPdf.loop r pdf quality (newPdf ++ [newPage]) (i + 1) count

/-- The function `process(files, options)` of `compress-pdf` on `files[0]`, with
`quality` the parsed value of the slider. -/
def compressPdf.process {π ι : Type} (r : Renderer π ι) (pdf : List π) (quality : ℚ) :
    Outcome (ImagePage ι) :=
  let numPages := pdf.length
  compressPdf.loop r pdf quality [] 1 (numPages + 1 - 1)

/-! ## split-pdf -/

/-- The callback of `rangeStr.split(',').forEach` in `split-pdf`, on the set built
so far: `none` when a numeral of the part is outside the embedding. -/
def splitPdf.forEachPart (pageIndices : List Int) (part0 : JSString) : Option (List Int) :=
  let part := trim part0
  if includes part '-' then
    match (split '-' part).map Number with
    | start :: stop :: _ =>
      match start, stop with
      | .nan, _ => some pageIndices
      | _, .nan => some pageIndices
      | .int a, .int b => some (addRange pageIndices a (rangeCount a b))
      | _, _ => none
    | _ => some pageIndices
  else
    match Number part with
    | .nan => some pageIndices
    | .int pageNum => some (setAdd pageIndices (pageNum - 1))
    | .other => none

/-- The set `pageIndices` of `split-pdf` after the `forEach`, in insertion order. -/
def splitPdf.pageIndicesFrom (pageIndices : List Int) : List JSString → Option (List Int)
  | [] => some pageIndices
  | part :: parts =>
    match splitPdf.forEachPart pageIndices part with
    | none => none
    | some s => splitPdf.pageIndicesFrom s parts

/-- The range parser inlined in `split-pdf`. -/
def splitPdf.pageIndices (rangeStr : JSString) : Option (List Int) :=
  splitPdf.pageIndicesFrom [] (split ',' rangeStr)

/-- The array `validIndices` of `split-pdf`. -/
def splitPdf.validIndices (pageIndices : List Int) (pageCount : Nat) : List Int :=
  pageIndices.filter (fun i => decide (0 ≤ i) && decide (i < (pageCount : Int)))

/-- The part of `split-pdf` after the range is parsed. -/
def splitPdf.extract {π : Type} (pdf : List π) (pageIndices : List Int) : Run π :=
  let validIndices := splitPdf.validIndices pageIndices pdf.length
  if validIndices.length = 0 then ⟨[Call.load, Call.create], .threw .noValidPages⟩
  else
    match copyPages pdf validIndices with
    | none => ⟨[Call.load, Call.create, Call.copyPages validIndices], .threw .collaborator⟩
    | some copiedPages =>
      ⟨[Call.load, Call.create, Call.copyPages validIndices]
          ++ copiedPages.map (fun _ => Call.addPage) ++ [Call.save],
        .saved (addPages [] copiedPages)⟩

/-- The function `process(files, options)` of `split-pdf` on `files[0]` and
`options['page-range']`; `none` when the range is outside the embedding. -/
def splitPdf.process {π : Type} (pdf : List π) (rangeStr : JSString) : Option (Run π) :=
  if rangeStr = [] then some ⟨[], .threw .rangeRequired⟩
  else
    match splitPdf.pageIndices rangeStr with
    | none => none
    | some pageIndices => some (splitPdf.extract pdf pageIndices)

/-! ## delete-pages -/

/-- The callback of `rangeStr.split(',').forEach` in `delete-pages`. -/
def deletePages.forEachPart (indicesToRemove : List Int) (part0 : JSString) :
    Option (List Int) :=
  let part := trim part0
  if includes part '-' then
    match (split '-' part).map Number with
    | start :: stop :: _ =>
      match start, stop with
      | .nan, _ => some indicesToRemove
      | _, .nan => some indicesToRemove
      | .int a, .int b => some (addRange indicesToRemove a (rangeCount a b))
      | _, _ => none
    | _ => some indicesToRemove
  else
    match Number part with
    | .nan => some indicesToRemove
    | .int pageNum => some (setAdd indicesToRemove (pageNum - 1))
    | .other => none

/-- The set `indicesToRemove` of `delete-pages` after the `forEach`. -/
def deletePages.indicesToRemoveFrom (indicesToRemove : List Int) :
    List JSString → Option (List Int)
  | [] => some indicesToRemove
  | part :: parts =>
    match deletePages.forEachPart indicesToRemove part with
    | none => none
    | some s => deletePages.indicesToRemoveFrom s parts

/-- The range parser inlined in `delete-pages`. -/
def deletePages.indicesToRemove (rangeStr : JSString) : Option (List Int) :=
  deletePages.indicesToRemoveFrom [] (split ',' rangeStr)

/-- The array `sortedIndices`: `Array.from(indicesToRemove).sort((a, b) => b - a)`. -/
def deletePages.sortedIndices (indicesToRemove : List Int) : List Int :=
  indicesToRemove.insertionSort (fun a b => b ≤ a)

/-- The loop `sortedIndices.forEach(index => ...)` of `delete-pages`: the document
after the loop and the indices `removePage` was called with, in call order. -/
def deletePages.removeLoop {π : Type} (pdfDoc : List π) : List Int → List π × List Int
  | [] => (pdfDoc, [])
  | index :: rest =>
    if 0 ≤ index ∧ index < (pdfDoc.length : Int) then
      let r := deletePages.removeLoop (pdfDoc.eraseIdx index.toNat) rest
      (r.1, index :: r.2)
    else deletePages.removeLoop pdfDoc rest

/-- The part of `delete-pages` after the range is parsed; the run ends with the
pages left when `save()` is called, and `Run.download` is the file written. -/
def deletePages.remove {π : Type} (pdfDoc : List π) (indicesToRemove : List Int) : Run π :=
  let sortedIndices := deletePages.sortedIndices indicesToRemove
  if sortedIndices.length = 0 then ⟨[Call.load], .threw .noValidPagesForDeletion⟩
  else
    let r := deletePages.removeLoop pdfDoc sortedIndices
    ⟨[Call.load] ++ r.2.map Call.removePage ++ [Call.save], .saved r.1⟩

/-- The function `process(files, options)` of `delete-pages` on `files[0]` and
`options['page-range']`; `none` when the range is outside the embedding. -/
def deletePages.process {π : Type} (pdfDoc : List π) (rangeStr : JSString) : Option (Run π) :=
  if rangeStr = [] then some ⟨[], .threw .rangeRequired⟩
  else
    match deletePages.indicesToRemove rangeStr with
    | none => none
    | some indicesToRemove => some (deletePages.remove pdfDoc indicesToRemove)

/-! ## Reference notions used to state the claims -/

/-- The arguments of the successive `add` calls one part of the range gives rise
to, in call order: `A - 1, ..., B - 1` for a range part, `N - 1` for a page
number, nothing for a part that is skipped. -/
def addedByPart (part0 : JSString) : Option (List Int) :=
  let part := trim part0
  if includes part '-' then
    match (split '-' part).map Number with
    | start :: stop :: _ =>
      match start, stop with
      | .nan, _ => some []
      | _, .nan => some []
      | .int a, .int b => some ((List.range (rangeCount a b)).map (fun (k : Nat) => a + (k : Int) - 1))
      | _, _ => none
    | _ => some []
  else
    match Number part with
    | .nan => some []
    | .int pageNum => some [pageNum - 1]
    | .other => none

/-- The arguments of all `add` calls over the parts, reading left to right. -/
def addedByParts : List JSString → Option (List Int)
  | [] => some []
  | part :: parts =>
    match addedByPart part, addedByParts parts with
    | some a, some b => some (a ++ b)
    | _, _ => none

/-- The arguments of all `add` calls made while parsing `rangeStr`. -/
def addedBy (rangeStr : JSString) : Option (List Int) :=
  addedByParts (split ',' rangeStr)

/-- The pages of `pdf` at the positions `ks`, in the order of `ks`. -/
def pagesAt {π : Type} (pdf : List π) (ks : List Nat) : List π :=
  ks.filterMap (fun k => pdf[k]?)

/-- The positions `0 .. pageCount - 1` that are not in `indices`, ascending. -/
def positionsNotIn (pageCount : Nat) (indices : List Int) : List Nat :=
  (List.range pageCount).filter (fun (k : Nat) => decide ((k : Int) ∉ indices))

/-- The positions `0 .. pageCount - 1` that are in `indices`, ascending. -/
def positionsIn (pageCount : Nat) (indices : List Int) : List Nat :=
  (List.range pageCount).filter (fun (k : Nat) => decide ((k : Int) ∈ indices))

/-- The pages of `pages`, the first of which is at position `k`, whose position is
not in `indices` (an auxiliary form of `pagesAt` over `positionsNotIn`). -/
def keepFrom {π : Type} (k : Nat) : List π → List Int → List π
  | [], _ => []
  | p :: ps, indices =>
    if (k : Int) ∈ indices then keepFrom (k + 1) ps indices
    else p :: keepFrom (k + 1) ps indices

/-- What a well-formed token of a range stands for: the page number `N`, or the
range `A-B` of page numbers. -/
inductive Token where
  | page (n : Nat)
  | range (a b : Nat)

/-- The zero-based indices a token stands for: `N - 1`, or `A - 1` to `B - 1`
inclusive. -/
def Token.covers : Token → Int → Prop
  | .page n, i => i = (n : Int) - 1
  | .range a b, i => (a : Int) - 1 ≤ i ∧ i ≤ (b : Int) - 1

/-- The zero-based indices of a token in reading order: `N - 1`, or
`A - 1, A, ..., B - 1`. -/
def Token.indices : Token → List Int
  | .page n => [(n : Int) - 1]
  | .range a b => (List.range (b + 1 - a)).map (fun (k : Nat) => (a : Int) + (k : Int) - 1)

/-- A string of white space, possibly empty. -/
def IsBlank (w : JSString) : Prop := ∀ c ∈ w, isWhiteSpace c = true

/-- The string `ds` is a decimal numeral of the integer `n`: digits only, at least
one, and `n` within the range of integers a JavaScript number holds exactly. -/
def IsNumeral (ds : JSString) (n : Nat) : Prop :=
  isDecimalDigits ds = true ∧ digitsValue ds = n ∧ n ≤ maxSafeInteger

instance (ds : JSString) (n : Nat) : Decidable (IsNumeral ds n) := by
  unfold IsNumeral
  infer_instance

/-- The text of a well-formed token: a numeral, or two numerals with a hyphen
between them, with optional white space around the numerals. -/
inductive WellFormed : JSString → Token → Prop
  | page (w1 ds w2 : JSString) (n : Nat) :
    IsBlank w1 → IsBlank w2 → IsNumeral ds n → WellFormed (w1 ++ ds ++ w2) (Token.page n)
  | range (w1 da w2 w3 db w4 : JSString) (a b : Nat) :
    IsBlank w1 → IsBlank w2 → IsBlank w3 → IsBlank w4 → IsNumeral da a → IsNumeral db b →
    WellFormed (w1 ++ da ++ w2 ++ '-' :: (w3 ++ db ++ w4)) (Token.range a b)

/-- The comma-separated list of the given texts. -/
def commaSeparated : List JSString → JSString
  | [] => []
  | [t] => t
  | t :: u :: rest => t ++ ',' :: commaSeparated (u :: rest)

/-! ## Lemmas on the document model -/

theorem addPages_eq {π : Type} (doc copiedPages : List π) :
    addPages doc copiedPages = doc ++ copiedPages := by
  unfold addPages
  induction copiedPages generalizing doc with
  | nil => simp
  | cons p ps ih => simp [List.foldl_cons, ih]

theorem copyPages_of_valid {π : Type} (pdf : List π) (indices : List Int)
    (h : ∀ i ∈ indices, 0 ≤ i ∧ i < (pdf.length : Int)) :
    ∃ pages, copyPages pdf indices = some pages ∧
      pages.map some = indices.map (fun i => pdf[i.toNat]?) := by
  induction indices with
  | nil => exact ⟨[], rfl, rfl⟩
  | cons i rest ih =>
    obtain ⟨pages, hp, hm⟩ := ih (fun j hj => h j (List.mem_cons_of_mem _ hj))
    obtain ⟨h0, h1⟩ := h i (List.mem_cons_self _ _)
    have hlt : i.toNat < pdf.length := by omega
    refine ⟨pdf[i.toNat] :: pages, ?_, ?_⟩
    · simp [copyPages, h0, hp, List.getElem?_eq_getElem hlt]
    · simp [hm, List.getElem?_eq_getElem hlt]

theorem range_map_getElem? {π : Type} (pdf : List π) :
    (List.range pdf.length).map (fun k => pdf[k]?) = pdf.map some := by
  apply List.ext_getElem?
  intro k
  by_cases hk : k < pdf.length
  · simp [hk, List.getElem?_eq_getElem]
  · have : pdf.length ≤ k := by omega
    simp [this, List.getElem?_eq_none]

theorem copyPages_getPageIndices {π : Type} (pdf : List π) :
    copyPages pdf (getPageIndices pdf) = some pdf := by
  obtain ⟨pages, hp, hm⟩ := copyPages_of_valid pdf (getPageIndices pdf) (by
    intro i hi
    simp only [getPageIndices, List.mem_map, List.mem_range] at hi
    obtain ⟨k, hk, rfl⟩ := hi
    simp; omega)
  have : pages.map some = pdf.map some := by
    rw [hm, ← range_map_getElem?]
    simp [getPageIndices, List.map_map, Function.comp_def]
  rw [hp, List.map_injective_iff.mpr (Option.some_injective π) this]

theorem mergePdf.loop_result {π : Type} (files : List (List π)) (mergedPdf : List π)
    (calls : List Call) :
    (mergePdf.loop mergedPdf calls files).result = Outcome.saved (mergedPdf ++ files.flatten) := by
  induction files generalizing mergedPdf calls with
  | nil => simp [mergePdf.loop]
  | cons pdf files ih =>
    simp [mergePdf.loop, copyPages_getPageIndices, ih, addPages_eq]

theorem compressPdf.loop_eq {π ι : Type} (r : Renderer π ι) (pdf : List π) (quality : ℚ)
    (count : Nat) (newPdf : List (ImagePage ι)) (i : Nat) (hi : 1 ≤ i)
    (hc : i + count = pdf.length + 1) :
    compressPdf.loop r pdf quality newPdf i count =
      Outcome.saved (newPdf ++ (pdf.drop (i - 1)).map (fun page =>
        (⟨(r.getViewport page 1.5).width, (r.getViewport page 1.5).height,
          r.renderJpeg page (r.getViewport page 1.5) quality, 0, 0,
          (r.getViewport page 1.5).width, (r.getViewport page 1.5).height⟩ : ImagePage ι))) := by
  induction count generalizing newPdf i with
  | zero =>
    have : pdf.length ≤ i - 1 := by omega
    simp [compressPdf.loop, List.drop_eq_nil_of_le this]
  | succ count ih =>
    have hlt : i - 1 < pdf.length := by omega
    have hg : getPage pdf i = some pdf[i - 1] := by
      simp [getPage, hi, List.getElem?_eq_getElem hlt]
    rw [compressPdf.loop, hg]
    simp only
    rw [ih _ (i + 1) (by omega) (by omega)]
    have hd : pdf.drop (i - 1) = pdf[i - 1] :: pdf.drop (i + 1 - 1) := by
      rw [show i + 1 - 1 = i - 1 + 1 by omega]
      exact List.drop_eq_getElem_cons hlt
    rw [hd]
    simp

/-! ## Lemmas on the set -/

theorem mem_setAdd (s : List Int) (x i : Int) : i ∈ setAdd s x ↔ i ∈ s ∨ i = x := by
  unfold setAdd
  split
  · constructor
    · exact Or.inl
    · rintro (h | rfl) <;> assumption
  · simp

theorem nodup_setAdd (s : List Int) (x : Int) (h : s.Nodup) : (setAdd s x).Nodup := by
  unfold setAdd
  split
  · exact h
  · rename_i hx
    exact List.nodup_append.mpr ⟨h, List.nodup_singleton x, by
      intro a ha hb
      simp at hb
      exact hx (hb ▸ ha)⟩

theorem mem_foldl_setAdd (raw s : List Int) (i : Int) :
    i ∈ raw.foldl setAdd s ↔ i ∈ s ∨ i ∈ raw := by
  induction raw generalizing s with
  | nil => simp
  | cons x raw ih =>
    rw [List.foldl_cons, ih, mem_setAdd, List.mem_cons]
    tauto

theorem nodup_foldl_setAdd (raw s : List Int) (h : s.Nodup) : (raw.foldl setAdd s).Nodup := by
  induction raw generalizing s with
  | nil => simpa
  | cons x raw ih => exact ih _ (nodup_setAdd s x h)

theorem addRange_eq_foldl (count : Nat) (s : List Int) (i : Int) :
    addRange s i count =
      ((List.range count).map (fun (k : Nat) => i + (k : Int) - 1)).foldl setAdd s := by
  induction count generalizing s i with
  | zero => rfl
  | succ count ih =>
    rw [addRange, ih, List.range_succ_eq_map]
    simp only [List.map_cons, List.foldl_cons, List.map_map]
    congr 2
    · simp
    · funext k
      simp only [Function.comp_apply, Nat.succ_eq_add_one]
      push_cast
      ring

/-- The function `addRange` unfolds as the loop it stands for: one more turn
while `i <= stop`. -/
theorem addRange_loop (s : List Int) (i stop : Int) :
    addRange s i (rangeCount i stop) =
      if i ≤ stop then addRange (setAdd s (i - 1)) (i + 1) (rangeCount (i + 1) stop) else s := by
  unfold rangeCount
  split
  · rename_i h
    have : (stop + 1 - i).toNat = (stop + 1 - (i + 1)).toNat + 1 := by omega
    rw [this, addRange]
  · rename_i h
    have : (stop + 1 - i).toNat = 0 := by omega
    rw [this, addRange]

theorem pairwise_foldl_setAdd (raw : List Int) :
    (raw.foldl setAdd []).Pairwise (fun i j => raw.indexOf i < raw.indexOf j) := by
  induction raw using List.reverseRecOn with
  | nil => simp
  | append_singleton raw x ih =>
    rw [List.foldl_append, List.foldl_cons, List.foldl_nil]
    have hsub : ∀ i, i ∈ raw.foldl setAdd [] → i ∈ raw := by
      intro i hi
      simpa using (mem_foldl_setAdd raw [] i).mp hi
    have ih2 : (raw.foldl setAdd []).Pairwise
        (fun i j => (raw ++ [x]).indexOf i < (raw ++ [x]).indexOf j) := by
      refine ih.imp_of_mem ?_
      intro a b ha hb hab
      rw [List.indexOf_append_of_mem (hsub a ha), List.indexOf_append_of_mem (hsub b hb)]
      exact hab
    unfold setAdd
    split
    · exact ih2
    · rename_i hx
      have hxr : x ∉ raw := fun h => hx ((mem_foldl_setAdd raw [] x).mpr (Or.inr h))
      refine List.pairwise_append.mpr ⟨ih2, List.pairwise_singleton _ _, ?_⟩
      intro a ha b hb
      rw [List.mem_singleton] at hb
      subst hb
      rw [List.indexOf_append_of_mem (hsub a ha), List.indexOf_append_of_not_mem hxr]
      have := List.indexOf_lt_length.mpr (hsub a ha)
      omega
/-! ## Lemmas on the parser -/

theorem splitPdf.forEachPart_eq (s : List Int) (part : JSString) :
    splitPdf.forEachPart s part = (addedByPart part).map (fun raw => raw.foldl setAdd s) := by
  unfold splitPdf.forEachPart addedByPart
  simp only
  split
  · split
    · split <;> simp [addRange_eq_foldl]
    · simp
  · split <;> simp [setAdd]

theorem splitPdf.pageIndicesFrom_eq (parts : List JSString) (s : List Int) :
    splitPdf.pageIndicesFrom s parts =
      (addedByParts parts).map (fun raw => raw.foldl setAdd s) := by
  induction parts generalizing s with
  | nil => simp [splitPdf.pageIndicesFrom, addedByParts]
  | cons part parts ih =>
    rw [splitPdf.pageIndicesFrom, splitPdf.forEachPart_eq, addedByParts]
    cases h1 : addedByPart part with
    | none => simp
    | some a =>
      simp only [Option.map_some']
      rw [ih]
      cases h2 : addedByParts parts with
      | none => simp
      | some b => simp [List.foldl_append]

theorem splitPdf.pageIndices_eq (rangeStr : JSString) :
    splitPdf.pageIndices rangeStr = (addedBy rangeStr).map (fun raw => raw.foldl setAdd []) :=
  splitPdf.pageIndicesFrom_eq _ _

theorem deletePages.indicesToRemoveFrom_eq (parts : List JSString) (s : List Int) :
    deletePages.indicesToRemoveFrom s parts = splitPdf.pageIndicesFrom s parts := by
  induction parts generalizing s with
  | nil => rfl
  | cons part parts ih =>
    rw [deletePages.indicesToRemoveFrom, splitPdf.pageIndicesFrom]
    have : deletePages.forEachPart s part = splitPdf.forEachPart s part := rfl
    rw [this]
    cases splitPdf.forEachPart s part with
    | none => rfl
    | some t => exact ih t

theorem deletePages.indicesToRemove_eq (rangeStr : JSString) :
    deletePages.indicesToRemove rangeStr = splitPdf.pageIndices rangeStr :=
  deletePages.indicesToRemoveFrom_eq _ _

theorem splitPdf.pageIndices_nodup (rangeStr : JSString) (s : List Int)
    (h : splitPdf.pageIndices rangeStr = some s) : s.Nodup := by
  rw [splitPdf.pageIndices_eq] at h
  cases hr : addedBy rangeStr with
  | none => simp [hr] at h
  | some raw =>
    simp only [hr, Option.map_some', Option.some.injEq] at h
    subst h
    exact nodup_foldl_setAdd raw [] List.nodup_nil

/-! ## Lemmas on the removal loop -/

theorem keepFrom_of_lt {π : Type} (ps : List π) (k : Nat) (indices : List Int)
    (h : ∀ j ∈ indices, j < (k : Int)) : keepFrom k ps indices = ps := by
  induction ps generalizing k with
  | nil => rfl
  | cons p ps ih =>
    have hk : (k : Int) ∉ indices := fun hk => lt_irrefl _ (h _ hk)
    rw [keepFrom, if_neg hk, ih (k + 1) (fun j hj => by have := h j hj; push_cast; omega)]

theorem keepFrom_cons_of_outside {π : Type} (ps : List π) (k : Nat) (i : Int)
    (rest : List Int) (h : i < (k : Int) ∨ ((k + ps.length : Nat) : Int) ≤ i) :
    keepFrom k ps (i :: rest) = keepFrom k ps rest := by
  induction ps generalizing k with
  | nil => rfl
  | cons p ps ih =>
    have hk : (k : Int) ≠ i := by
      rcases h with h | h
      · omega
      · simp only [List.length_cons] at h; push_cast at h; omega
    have hrec := ih (k + 1) (by
      rcases h with h | h
      · left; push_cast; omega
      · right; simp only [List.length_cons] at h; push_cast at h ⊢; omega)
    simp only [keepFrom, List.mem_cons, hk, false_or, hrec]

theorem keepFrom_eraseIdx {π : Type} (ps : List π) (k m : Nat) (rest : List Int)
    (hm : m < ps.length) (h : ∀ j ∈ rest, j < ((k + m : Nat) : Int)) :
    keepFrom k (ps.eraseIdx m) rest = keepFrom k ps (((k + m : Nat) : Int) :: rest) := by
  induction ps generalizing k m with
  | nil => simp at hm
  | cons p ps ih =>
    cases m with
    | zero =>
      simp only [List.eraseIdx_cons_zero, Nat.add_zero, keepFrom, List.mem_cons, true_or,
        if_true]
      rw [keepFrom_of_lt ps k rest (by simpa using h),
        keepFrom_of_lt ps (k + 1) _ (by
          intro j hj
          rcases List.mem_cons.mp hj with rfl | hj
          · push_cast; omega
          · have := h j hj; push_cast at this ⊢; omega)]
    | succ m =>
      have hm2 : m < ps.length := by simpa using hm
      have hrec := ih (k + 1) m hm2 (by
        intro j hj; have := h j hj; push_cast at this ⊢; omega)
      have hk : (k : Int) ≠ ((k + (m + 1) : Nat) : Int) := by push_cast; omega
      have he : ((k + 1 + m : Nat) : Int) = ((k + (m + 1) : Nat) : Int) := by
        push_cast; omega
      rw [he] at hrec
      simp only [List.eraseIdx_cons_succ, keepFrom, List.mem_cons, hk, false_or, hrec]

theorem keepFrom_eq_pagesAt {π : Type} (ps : List π) (k : Nat) (indices : List Int) :
    keepFrom k ps indices =
      pagesAt ps ((List.range ps.length).filter
        (fun j => decide (((k + j : Nat) : Int) ∉ indices))) := by
  induction ps generalizing k with
  | nil => rfl
  | cons p ps ih =>
    rw [keepFrom, ih (k + 1), List.length_cons, List.range_succ_eq_map, List.filter_cons,
      List.filter_map]
    have hf : ((fun j => decide (((k + j : Nat) : Int) ∉ indices)) ∘ Nat.succ) =
        (fun j => decide (((k + 1 + j : Nat) : Int) ∉ indices)) := by
      funext j
      simp only [Function.comp_apply, Nat.succ_eq_add_one]
      rw [show k + (j + 1) = k + 1 + j by omega]
    rw [hf]
    by_cases hk : (k : Int) ∈ indices
    · simp [hk, pagesAt, List.filterMap_map, Function.comp_def]
    · simp [hk, pagesAt, List.filterMap_map, Function.comp_def]

theorem keepFrom_zero_eq {π : Type} (pdf : List π) (indices : List Int) :
    keepFrom 0 pdf indices = pagesAt pdf (positionsNotIn pdf.length indices) := by
  rw [keepFrom_eq_pagesAt]
  simp [positionsNotIn]

theorem pagesAt_range {π : Type} (pdf : List π) : pagesAt pdf (List.range pdf.length) = pdf := by
  have := keepFrom_zero_eq pdf []
  rw [keepFrom_of_lt pdf 0 [] (by simp)] at this
  simpa [positionsNotIn] using this.symm

theorem deletePages.removeLoop_eq {π : Type} (sorted : List Int) (pdfDoc : List π)
    (h : sorted.Pairwise (fun a b => b < a)) :
    (deletePages.removeLoop pdfDoc sorted).1 = keepFrom 0 pdfDoc sorted ∧
    (deletePages.removeLoop pdfDoc sorted).2 =
      sorted.filter (fun i => decide (0 ≤ i) && decide (i < (pdfDoc.length : Int))) := by
  induction sorted generalizing pdfDoc with
  | nil => cases pdfDoc <;> simp [deletePages.removeLoop, keepFrom_of_lt]
  | cons i rest ih =>
    obtain ⟨hi, hrest⟩ := List.pairwise_cons.mp h
    by_cases hv : 0 ≤ i ∧ i < (pdfDoc.length : Int)
    · obtain ⟨h1, h2⟩ := ih (pdfDoc.eraseIdx i.toNat) hrest
      have hlt : i.toNat < pdfDoc.length := by omega
      have hcast : ((0 + i.toNat : Nat) : Int) = i := by simp; omega
      have key := keepFrom_eraseIdx pdfDoc 0 i.toNat rest hlt (by
        intro j hj; rw [hcast]; exact hi j hj)
      rw [hcast] at key
      rw [deletePages.removeLoop, if_pos hv]
      refine ⟨by simpa [key] using h1, ?_⟩
      simp only [h2]
      rw [List.filter_cons]
      simp only [hv.1, hv.2, decide_True, Bool.and_self, if_true]
      congr 1
      apply List.filter_congr
      intro j hj
      have hj1 := hi j hj
      have hlen : (pdfDoc.eraseIdx i.toNat).length = pdfDoc.length - 1 :=
        List.length_eraseIdx_of_lt hlt
      rw [hlen]
      have : (j < ((pdfDoc.length - 1 : Nat) : Int)) ↔ (j < (pdfDoc.length : Int)) := by omega
      simp [this]
    · obtain ⟨h1, h2⟩ := ih pdfDoc hrest
      rw [deletePages.removeLoop, if_neg hv]
      refine ⟨?_, ?_⟩
      · rw [h1, keepFrom_cons_of_outside pdfDoc 0 i rest (by
          by_cases h0 : 0 ≤ i
          · right; have := fun hh => hv ⟨h0, hh⟩; push_cast; omega
          · left; push_cast; omega)]
      · rw [h2, List.filter_cons]
        have : (decide (0 ≤ i) && decide (i < (pdfDoc.length : Int))) = false := by
          simpa using fun h0 => not_lt.mp (fun hh => hv ⟨h0, hh⟩)
        simp [this]

/-! ## Lemmas on the two range pipelines -/

theorem eq_filterMap_of_map_some {α β : Type} (f : α → Option β) (l : List α) (out : List β)
    (h : out.map some = l.map f) : out = l.filterMap f := by
  induction l generalizing out with
  | nil => simpa using h
  | cons a l ih =>
    cases out with
    | nil => simp at h
    | cons b out =>
      simp only [List.map_cons, List.cons.injEq] at h
      rw [List.filterMap_cons, ← h.1, ← ih out h.2]

theorem splitPdf.validIndices_mem (pageIndices : List Int) (pageCount : Nat) (i : Int) :
    i ∈ splitPdf.validIndices pageIndices pageCount ↔
      i ∈ pageIndices ∧ 0 ≤ i ∧ i < (pageCount : Int) := by
  simp [splitPdf.validIndices, List.mem_filter]

theorem splitPdf.extract_saved {π : Type} (pdf : List π) (pageIndices : List Int)
    (out : List π) (h : (splitPdf.extract pdf pageIndices).result = Outcome.saved out) :
    out.map some =
      (splitPdf.validIndices pageIndices pdf.length).map (fun i => pdf[i.toNat]?) := by
  obtain ⟨pages, hp, hm⟩ := copyPages_of_valid pdf (splitPdf.validIndices pageIndices pdf.length)
    (fun i hi => ((splitPdf.validIndices_mem _ _ i).mp hi).2)
  by_cases he : splitPdf.validIndices pageIndices pdf.length = []
  · simp [splitPdf.extract, he] at h
  · simp only [splitPdf.extract, List.length_eq_zero, he, if_false, hp, addPages_eq,
      List.nil_append, Outcome.saved.injEq] at h
    rw [← h, hm]

theorem splitPdf.split_saved_inv {π : Type} (pdf : List π) (rangeStr : JSString) (run : Run π)
    (out : List π) (h : splitPdf.process pdf rangeStr = some run)
    (hs : run.result = Outcome.saved out) :
    ∃ indices, splitPdf.pageIndices rangeStr = some indices ∧
      run = splitPdf.extract pdf indices := by
  unfold splitPdf.process at h
  split at h
  · simp only [Option.some.injEq] at h
    subst h
    simp at hs
  · cases hp : splitPdf.pageIndices rangeStr with
    | none => simp [hp] at h
    | some indices =>
      simp only [hp, Option.some.injEq] at h
      exact ⟨indices, rfl, h.symm⟩

theorem deletePages.sortedIndices_mem (indices : List Int) (i : Int) :
    i ∈ deletePages.sortedIndices indices ↔ i ∈ indices :=
  (List.perm_insertionSort _ indices).mem_iff

theorem deletePages.sortedIndices_pairwise (indices : List Int) (h : indices.Nodup) :
    (deletePages.sortedIndices indices).Pairwise (fun a b => b < a) := by
  have hs : (deletePages.sortedIndices indices).Sorted (· ≥ ·) :=
    List.sorted_insertionSort (fun a b : Int => b ≤ a) indices
  have hn : (deletePages.sortedIndices indices).Nodup :=
    (List.perm_insertionSort _ indices).nodup_iff.mpr h
  exact hs.gt_of_ge hn

theorem positionsNotIn_congr (n : Nat) (a b : List Int) (h : ∀ i, i ∈ a ↔ i ∈ b) :
    positionsNotIn n a = positionsNotIn n b := by
  unfold positionsNotIn
  apply List.filter_congr
  intro k _
  simp [h]

theorem deletePages.remove_saved {π : Type} (pdfDoc : List π) (indices : List Int)
    (hn : indices.Nodup) (hne : indices ≠ []) :
    deletePages.remove pdfDoc indices =
      ⟨[Call.load] ++ ((deletePages.sortedIndices indices).filter
          (fun i => decide (0 ≤ i) && decide (i < (pdfDoc.length : Int)))).map Call.removePage
          ++ [Call.save],
        Outcome.saved (pagesAt pdfDoc (positionsNotIn pdfDoc.length indices))⟩ := by
  have hlen : (deletePages.sortedIndices indices).length ≠ 0 := by
    rw [deletePages.sortedIndices, List.length_insertionSort]
    simpa using hne
  obtain ⟨h1, h2⟩ := deletePages.removeLoop_eq (deletePages.sortedIndices indices) pdfDoc
    (deletePages.sortedIndices_pairwise indices hn)
  rw [keepFrom_zero_eq, positionsNotIn_congr _ _ indices
    (deletePages.sortedIndices_mem indices)] at h1
  simp only [deletePages.remove, hlen, if_false, h1, h2]

theorem deletePages.delete_saved_inv {π : Type} (pdfDoc : List π) (rangeStr : JSString)
    (run : Run π) (out : List π) (h : deletePages.process pdfDoc rangeStr = some run)
    (hs : run.result = Outcome.saved out) :
    ∃ indices, deletePages.indicesToRemove rangeStr = some indices ∧ indices.Nodup ∧
      indices ≠ [] ∧ run = deletePages.remove pdfDoc indices := by
  unfold deletePages.process at h
  split at h
  · simp only [Option.some.injEq] at h
    subst h
    simp at hs
  · cases hp : deletePages.indicesToRemove rangeStr with
    | none => simp [hp] at h
    | some indices =>
      simp only [hp, Option.some.injEq] at h
      refine ⟨indices, rfl, ?_, ?_, h.symm⟩
      · rw [deletePages.indicesToRemove_eq] at hp
        exact splitPdf.pageIndices_nodup rangeStr indices hp
      · rintro rfl
        rw [← h] at hs
        simp [deletePages.remove, deletePages.sortedIndices] at hs

theorem validIndices_toNat_perm (indices : List Int) (n : Nat) (hn : indices.Nodup) :
    ((splitPdf.validIndices indices n).map Int.toNat).Perm (positionsIn n indices) := by
  have hv : (splitPdf.validIndices indices n).Nodup := hn.filter _
  apply (List.perm_ext_iff_of_nodup ?_ ?_).mpr
  · intro k
    simp only [List.mem_map, splitPdf.validIndices_mem, positionsIn, List.mem_filter,
      List.mem_range, decide_eq_true_eq]
    constructor
    · rintro ⟨i, ⟨hi, h0, h1⟩, rfl⟩
      refine ⟨by omega, ?_⟩
      rwa [Int.toNat_of_nonneg h0]
    · rintro ⟨hk, hi⟩
      exact ⟨(k : Int), ⟨hi, by omega, by omega⟩, by simp⟩
  · apply List.Nodup.map_on _ hv
    intro a ha b hb hab
    have ha0 := ((splitPdf.validIndices_mem _ _ a).mp ha).2.1
    have hb0 := ((splitPdf.validIndices_mem _ _ b).mp hb).2.1
    omega
  · exact (List.nodup_range n).filter _

theorem positions_perm (n : Nat) (indices : List Int) :
    (positionsIn n indices ++ positionsNotIn n indices).Perm (List.range n) := by
  have h := List.filter_append_perm (fun k : Nat => decide ((k : Int) ∈ indices)) (List.range n)
  have he : positionsNotIn n indices =
      (List.range n).filter (fun (k : Nat) => !decide ((k : Int) ∈ indices)) := by
    unfold positionsNotIn
    apply List.filter_congr
    intro k _
    simp
  rw [he]
  exact h

/-! ## Lemmas on strings -/

theorem split_of_not_mem (sep : Char) (s : JSString) (h : sep ∉ s) : split sep s = [s] := by
  induction s with
  | nil => rfl
  | cons c cs ih =>
    have hc : c ≠ sep := fun e => h (e ▸ List.mem_cons_self _ _)
    have hcs : sep ∉ cs := fun e => h (List.mem_cons_of_mem _ e)
    rw [split, if_neg hc, ih hcs]

theorem split_append_sep (sep : Char) (x y : JSString) (h : sep ∉ x) :
    split sep (x ++ sep :: y) = x :: split sep y := by
  induction x with
  | nil => simp [split]
  | cons c cs ih =>
    have hc : c ≠ sep := fun e => h (e ▸ List.mem_cons_self _ _)
    have hcs : sep ∉ cs := fun e => h (List.mem_cons_of_mem _ e)
    rw [List.cons_append, split, if_neg hc, ih hcs]

theorem split_commaSeparated (strs : List JSString) (hne : strs ≠ [])
    (h : ∀ s ∈ strs, ',' ∉ s) : split ',' (commaSeparated strs) = strs := by
  induction strs with
  | nil => exact absurd rfl hne
  | cons a rest ih =>
    cases rest with
    | nil => exact split_of_not_mem _ _ (h a (List.mem_cons_self _ _))
    | cons b rest =>
      rw [commaSeparated, split_append_sep _ _ _ (h a (List.mem_cons_self _ _)),
        ih (List.cons_ne_nil _ _) (fun s hs => h s (List.mem_cons_of_mem _ hs))]

theorem dropWhile_append_of_all {α : Type} (p : α → Bool) (w l : List α)
    (h : ∀ c ∈ w, p c = true) : (w ++ l).dropWhile p = l.dropWhile p := by
  induction w with
  | nil => rfl
  | cons c w ih =>
    rw [List.cons_append, List.dropWhile_cons, if_pos (h c (List.mem_cons_self _ _)),
      ih (fun d hd => h d (List.mem_cons_of_mem _ hd))]

theorem dropWhile_of_head {α : Type} (p : α → Bool) (c : α) (l : List α) (h : p c = false) :
    (c :: l).dropWhile p = c :: l := by
  rw [List.dropWhile_cons]
  simp [h]

/-- Trimming removes the white space around a text that neither starts nor ends
with white space. -/
theorem trim_core (w1 w2 : JSString) (c d : Char) (mid : JSString) (core : JSString)
    (h1 : IsBlank w1) (h2 : IsBlank w2) (hc : isWhiteSpace c = false)
    (hd : isWhiteSpace d = false) (hhead : ∃ t, core = c :: t) (hlast : ∃ t, core = t ++ [d])
    (hmid : mid = core) : trim (w1 ++ mid ++ w2) = core := by
  subst hmid
  obtain ⟨t, ht⟩ := hhead
  obtain ⟨t2, ht2⟩ := hlast
  unfold trim
  rw [List.append_assoc, dropWhile_append_of_all _ _ _ h1]
  have e1 : (mid ++ w2).dropWhile isWhiteSpace = mid ++ w2 := by
    rw [ht, List.cons_append]
    exact dropWhile_of_head _ _ _ hc
  rw [e1, List.reverse_append,
    dropWhile_append_of_all _ _ _ (fun x hx => h2 x (List.mem_reverse.mp hx))]
  have e2 : mid.reverse.dropWhile isWhiteSpace = mid.reverse := by
    rw [ht2, List.reverse_append, List.reverse_singleton, List.singleton_append]
    exact dropWhile_of_head _ _ _ hd
  rw [e2, List.reverse_reverse]

theorem trim_blank (w : JSString) (h : IsBlank w) : trim w = [] := by
  unfold trim
  have : w.dropWhile isWhiteSpace = [] := by
    have := dropWhile_append_of_all isWhiteSpace w [] h
    simpa using this
  rw [this]
  rfl

theorem digit_not_whiteSpace (c : Char) (h : isDecimalDigit c = true) :
    isWhiteSpace c = false := by
  simp only [isDecimalDigit, Bool.and_eq_true, decide_eq_true_eq] at h
  simp only [isWhiteSpace, Bool.or_eq_false_iff, decide_eq_false_iff_not, Bool.and_eq_false_imp,
    decide_eq_true_eq, List.mem_cons, List.mem_singleton, List.not_mem_nil, or_false]
  constructor <;> omega

theorem digit_ne (c d : Char) (h : isDecimalDigit c = true) (hd : isDecimalDigit d = false) :
    c ≠ d := by
  rintro rfl
  rw [h] at hd
  exact Bool.noConfusion hd

theorem blank_ne (c d : Char) (h : isWhiteSpace c = true) (hd : isWhiteSpace d = false) :
    c ≠ d := by
  rintro rfl
  rw [h] at hd
  exact Bool.noConfusion hd

theorem not_mem_of_blank (w : JSString) (d : Char) (h : IsBlank w)
    (hd : isWhiteSpace d = false) : d ∉ w :=
  fun hm => blank_ne d d (h d hm) hd rfl

theorem isDecimalDigits_iff (ds : JSString) :
    isDecimalDigits ds = true ↔ ds ≠ [] ∧ ∀ c ∈ ds, isDecimalDigit c = true := by
  cases ds <;> simp [isDecimalDigits]

theorem not_mem_of_digits (ds : JSString) (d : Char) (h : isDecimalDigits ds = true)
    (hd : isDecimalDigit d = false) : d ∉ ds :=
  fun hm => digit_ne d d (((isDecimalDigits_iff ds).mp h).2 d hm) hd rfl

theorem digits_head (ds : JSString) (h : isDecimalDigits ds = true) :
    ∃ c t, ds = c :: t ∧ isDecimalDigit c = true := by
  obtain ⟨hne, hall⟩ := (isDecimalDigits_iff ds).mp h
  cases ds with
  | nil => exact absurd rfl hne
  | cons c t => exact ⟨c, t, rfl, hall c (List.mem_cons_self _ _)⟩

theorem digits_last (ds : JSString) (h : isDecimalDigits ds = true) :
    ∃ t d, ds = t ++ [d] ∧ isDecimalDigit d = true := by
  obtain ⟨hne, hall⟩ := (isDecimalDigits_iff ds).mp h
  refine ⟨ds.dropLast, ds.getLast hne, (List.dropLast_append_getLast hne).symm, ?_⟩
  exact hall _ (List.getLast_mem hne)

/-- The conversion `Number` reads a numeral with white space around it as its value. -/
theorem Number_numeral (w1 ds w2 : JSString) (n : Nat) (h1 : IsBlank w1) (h2 : IsBlank w2)
    (hn : IsNumeral ds n) : Number (w1 ++ ds ++ w2) = JSNumber.int (n : Int) := by
  obtain ⟨hd, hv, hmax⟩ := hn
  obtain ⟨c, t, hct, hc⟩ := digits_head ds hd
  obtain ⟨t2, d, hdt, hdd⟩ := digits_last ds hd
  have htrim : trim (w1 ++ ds ++ w2) = ds :=
    trim_core w1 w2 c d ds ds h1 h2 (digit_not_whiteSpace c hc) (digit_not_whiteSpace d hdd)
      ⟨t, hct⟩ ⟨t2, hdt⟩ rfl
  have hplus : c ≠ '+' := digit_ne c '+' hc (by decide)
  have hminus : c ≠ '-' := digit_ne c '-' hc (by decide)
  unfold Number
  rw [htrim, hct]
  simp only [hplus, hminus, decide_False, Bool.or_self, Bool.false_eq_true, if_false]
  rw [← hct, hd, if_pos rfl, hv, if_pos hmax]


/-! ## Lemmas on well-formed tokens -/

theorem isBlank_nil : IsBlank [] := fun _ h => absurd h (List.not_mem_nil _)

theorem wellFormed_no_comma (s : JSString) (tok : Token) (h : WellFormed s tok) : ',' ∉ s := by
  have hb : ∀ w, IsBlank w → ',' ∉ w := fun w hw => not_mem_of_blank w ',' hw (by decide)
  have hd : ∀ ds n, IsNumeral ds n → ',' ∉ ds :=
    fun ds n hn => not_mem_of_digits ds ',' hn.1 (by decide)
  cases h with
  | page w1 ds w2 n h1 h2 hn =>
    simp only [List.mem_append, not_or]
    exact ⟨⟨hb w1 h1, hd ds n hn⟩, hb w2 h2⟩
  | range w1 da w2 w3 db w4 a b h1 h2 h3 h4 ha hb2 =>
    simp only [List.mem_append, List.mem_cons, not_or]
    exact ⟨⟨⟨hb w1 h1, hd da a ha⟩, hb w2 h2⟩, by decide, ⟨hb w3 h3, hd db b hb2⟩, hb w4 h4⟩

theorem Token.mem_indices (tok : Token) (i : Int) : i ∈ tok.indices ↔ tok.covers i := by
  cases tok with
  | page n => simp [Token.indices, Token.covers]
  | range a b =>
    simp only [Token.indices, Token.covers, List.mem_map, List.mem_range]
    constructor
    · rintro ⟨k, hk, rfl⟩
      omega
    · rintro ⟨h5, h6⟩
      exact ⟨(i - ((a : Int) - 1)).toNat, by omega, by omega⟩

theorem addedByPart_wellFormed (s : JSString) (tok : Token) (h : WellFormed s tok) :
    addedByPart s = some tok.indices := by
  cases h with
  | page w1 ds w2 n h1 h2 hn =>
    obtain ⟨c, t, hct, hc⟩ := digits_head ds hn.1
    obtain ⟨t2, d, hdt, hdd⟩ := digits_last ds hn.1
    have htrim : trim (w1 ++ ds ++ w2) = ds :=
      trim_core w1 w2 c d ds ds h1 h2 (digit_not_whiteSpace c hc) (digit_not_whiteSpace d hdd)
        ⟨t, hct⟩ ⟨t2, hdt⟩ rfl
    have hinc : includes ds '-' = false := by
      simpa [includes] using not_mem_of_digits ds '-' hn.1 (by decide)
    have hnum : Number ds = JSNumber.int (n : Int) := by
      simpa using Number_numeral [] ds [] n isBlank_nil isBlank_nil hn
    unfold addedByPart
    simp only [htrim, hinc, hnum, Bool.false_eq_true, if_false, Token.indices]
  | range w1 da w2 w3 db w4 a b h1 h2 h3 h4 ha hb =>
    obtain ⟨c, t, hct, hc⟩ := digits_head da ha.1
    obtain ⟨t2, d, hdt, hdd⟩ := digits_last db hb.1
    have hs : w1 ++ da ++ w2 ++ '-' :: (w3 ++ db ++ w4) =
        w1 ++ (da ++ w2 ++ '-' :: (w3 ++ db)) ++ w4 := by simp
    have htrim : trim (w1 ++ da ++ w2 ++ '-' :: (w3 ++ db ++ w4)) =
        da ++ w2 ++ '-' :: (w3 ++ db) := by
      rw [hs]
      refine trim_core w1 w4 c d _ _ h1 h4 (digit_not_whiteSpace c hc)
        (digit_not_whiteSpace d hdd) ⟨t ++ w2 ++ '-' :: (w3 ++ db), ?_⟩
        ⟨da ++ w2 ++ '-' :: (w3 ++ t2), ?_⟩ rfl
      · simp [hct]
      · simp [hdt]
    have hinc : includes (da ++ w2 ++ '-' :: (w3 ++ db)) '-' = true := by
      simp [includes]
    have hl : '-' ∉ da ++ w2 := by
      simp only [List.mem_append, not_or]
      exact ⟨not_mem_of_digits da '-' ha.1 (by decide), not_mem_of_blank w2 '-' h2 (by decide)⟩
    have hr : '-' ∉ w3 ++ db := by
      simp only [List.mem_append, not_or]
      exact ⟨not_mem_of_blank w3 '-' h3 (by decide), not_mem_of_digits db '-' hb.1 (by decide)⟩
    have hsplit : split '-' (da ++ w2 ++ '-' :: (w3 ++ db)) = [da ++ w2, w3 ++ db] := by
      rw [split_append_sep _ _ _ hl, split_of_not_mem _ _ hr]
    have hna : Number (da ++ w2) = JSNumber.int (a : Int) := by
      simpa using Number_numeral [] da w2 a isBlank_nil h2 ha
    have hnb : Number (w3 ++ db) = JSNumber.int (b : Int) := by
      simpa using Number_numeral w3 db [] b h3 isBlank_nil hb
    have hcount : rangeCount (a : Int) (b : Int) = b + 1 - a := by
      unfold rangeCount
      omega
    unfold addedByPart
    simp only [htrim, hinc, hsplit, List.map_cons, List.map_nil, hna, hnb, if_true, hcount,
      Token.indices]

theorem addedByParts_wellFormed (tokens : List (JSString × Token))
    (h : ∀ t ∈ tokens, WellFormed t.1 t.2) :
    addedByParts (tokens.map Prod.fst) = some (tokens.map (fun t => t.2.indices)).flatten := by
  induction tokens with
  | nil => rfl
  | cons t tokens ih =>
    simp only [List.map_cons, addedByParts, List.flatten_cons,
      addedByPart_wellFormed t.1 t.2 (h t (List.mem_cons_self _ _)),
      ih (fun u hu => h u (List.mem_cons_of_mem _ hu))]

theorem addedBy_wellFormed (tokens : List (JSString × Token)) (hne : tokens ≠ [])
    (h : ∀ t ∈ tokens, WellFormed t.1 t.2) :
    addedBy (commaSeparated (tokens.map Prod.fst)) =
      some (tokens.map (fun t => t.2.indices)).flatten := by
  have hsplit : split ',' (commaSeparated (tokens.map Prod.fst)) = tokens.map Prod.fst := by
    apply split_commaSeparated
    · simpa using hne
    · intro s hs
      obtain ⟨t, ht, rfl⟩ := List.mem_map.mp hs
      exact wellFormed_no_comma t.1 t.2 (h t ht)
  rw [addedBy, hsplit, addedByParts_wellFormed tokens h]

/-! ## Lemmas on the range check -/

theorem pageIndices_blank (rangeStr : JSString) (h : IsBlank rangeStr) :
    splitPdf.pageIndices rangeStr = some [-1] := by
  have hsplit : split ',' rangeStr = [rangeStr] :=
    split_of_not_mem _ _ (not_mem_of_blank rangeStr ',' h (by decide))
  have hN : Number [] = JSNumber.int 0 := by decide
  have hi : includes [] '-' = false := by decide
  rw [splitPdf.pageIndices, hsplit, splitPdf.pageIndicesFrom, splitPdf.forEachPart]
  simp only [trim_blank rangeStr h, hi, hN, Bool.false_eq_true, if_false]
  rfl

theorem splitPdf.extract_ne_rangeRequired {π : Type} (pdf : List π) (indices : List Int) :
    (splitPdf.extract pdf indices).result ≠ Outcome.threw PipelineError.rangeRequired := by
  unfold splitPdf.extract
  simp only
  split
  · simp
  · split <;> simp

theorem deletePages.remove_ne_rangeRequired {π : Type} (pdfDoc : List π) (indices : List Int) :
    (deletePages.remove pdfDoc indices).result ≠ Outcome.threw PipelineError.rangeRequired := by
  unfold deletePages.remove
  simp only
  split <;> simp

/-! ## Further lemmas on merge and split -/

theorem flatten_getElem?_offset {π : Type} (files : List (List π)) (j k : Nat) (pdf : List π)
    (page : π) (hj : files[j]? = some pdf) (hk : pdf[k]? = some page) :
    files.flatten[((files.take j).map List.length).sum + k]? = some page := by
  induction files generalizing j with
  | nil => simp at hj
  | cons f fs ih =>
    cases j with
    | zero =>
      simp only [List.getElem?_cons_zero, Option.some.injEq] at hj
      subst hj
      have hlt : k < f.length := by
        by_contra hc
        rw [List.getElem?_eq_none (by omega)] at hk
        exact Option.noConfusion hk
      simp only [List.take_zero, List.map_nil, List.sum_nil, Nat.zero_add, List.flatten_cons]
      rw [List.getElem?_append_left hlt, hk]
    | succ j =>
      simp only [List.getElem?_cons_succ] at hj
      have := ih j hj
      simp only [List.take_succ_cons, List.map_cons, List.sum_cons, List.flatten_cons]
      rw [List.getElem?_append_right (by omega)]
      rw [show f.length + ((fs.take j).map List.length).sum + k - f.length =
        ((fs.take j).map List.length).sum + k by omega]
      exact this

theorem splitPdf.extract_calls {π : Type} (pdf : List π) (indices : List Int) (out : List π)
    (h : (splitPdf.extract pdf indices).result = Outcome.saved out) :
    Call.copyPages (splitPdf.validIndices indices pdf.length) ∈
      (splitPdf.extract pdf indices).calls := by
  unfold splitPdf.extract at h ⊢
  simp only at h ⊢
  split
  · rename_i he
    simp [he] at h
  · split <;> simp

theorem deletePages.remove_all_invalid {π : Type} (pdfDoc : List π) (indices : List Int)
    (hn : indices.Nodup) (hne : indices ≠ [])
    (hout : ∀ i ∈ indices, i < 0 ∨ (pdfDoc.length : Int) ≤ i) :
    deletePages.remove pdfDoc indices = ⟨[Call.load, Call.save], Outcome.saved pdfDoc⟩ := by
  rw [deletePages.remove_saved pdfDoc indices hn hne]
  have h1 : positionsNotIn pdfDoc.length indices = List.range pdfDoc.length := by
    unfold positionsNotIn
    apply List.filter_eq_self.mpr
    intro k hk
    have hk2 := List.mem_range.mp hk
    simp only [decide_eq_true_eq]
    intro hmem
    rcases hout _ hmem with h | h <;> omega
  have h2 : (deletePages.sortedIndices indices).filter
      (fun i => decide (0 ≤ i) && decide (i < (pdfDoc.length : Int))) = [] := by
    apply List.filter_eq_nil_iff.mpr
    intro i hi
    have := hout i ((deletePages.sortedIndices_mem indices i).mp hi)
    simp only [Bool.and_eq_true, decide_eq_true_eq, not_and, not_lt]
    intro h0
    omega
  rw [h1, h2, pagesAt_range]
  rfl

/-! ## Lemmas on the file written -/

theorem save_of_ne_nil {π : Type} (doc : List π) (h : doc ≠ []) :
    save doc = doc.map FilePage.page := by
  cases doc with
  | nil => exact absurd rfl h
  | cons p ps => rfl

theorem Run.download_saved {π : Type} (run : Run π) (doc : List π)
    (h : run.result = Outcome.saved doc) : run.download = some (save doc) := by
  unfold Run.download
  rw [h]

theorem splitPdf.extract_saved_ne_nil {π : Type} (pdf : List π) (indices : List Int)
    (doc : List π) (h : (splitPdf.extract pdf indices).result = Outcome.saved doc) :
    doc ≠ [] := by
  have hm := splitPdf.extract_saved pdf indices doc h
  rintro rfl
  have hv : splitPdf.validIndices indices pdf.length = [] := by
    simpa using hm.symm
  simp [splitPdf.extract, hv] at h

/-! ## Claims -/

/-- Claim C1. Range parsing, in Split and in Delete alike: for a range that is a
comma-separated list of well-formed tokens (a page number `N`, or a range `A-B`,
with optional white space around the numbers), the parsed index set has no
duplicate and its members are exactly `N - 1` for each page-number token and
`A - 1, ..., B - 1` for each range token. -/
theorem C1_range_parsing (tokens : List (JSString × Token)) (hne : tokens ≠ [])
    (hwf : ∀ t ∈ tokens, WellFormed t.1 t.2) :
    ∃ indices, splitPdf.pageIndices (commaSeparated (tokens.map Prod.fst)) = some indices ∧
      deletePages.indicesToRemove (commaSeparated (tokens.map Prod.fst)) = some indices ∧
      indices.Nodup ∧ ∀ i, i ∈ indices ↔ ∃ t ∈ tokens, t.2.covers i := by
  have hp : splitPdf.pageIndices (commaSeparated (tokens.map Prod.fst)) =
      some ((tokens.map (fun t => t.2.indices)).flatten.foldl setAdd []) := by
    rw [splitPdf.pageIndices_eq, addedBy_wellFormed tokens hne hwf]
    rfl
  refine ⟨_, hp, ?_, nodup_foldl_setAdd _ [] List.nodup_nil, ?_⟩
  · rw [deletePages.indicesToRemove_eq, hp]
  · intro i
    rw [mem_foldl_setAdd]
    simp only [List.not_mem_nil, false_or, List.mem_flatten, List.mem_map]
    constructor
    · rintro ⟨l, ⟨t, ht, rfl⟩, hi⟩
      exact ⟨t, ht, (Token.mem_indices t.2 i).mp hi⟩
    · rintro ⟨t, ht, hi⟩
      exact ⟨t.2.indices, ⟨t, ht, rfl⟩, (Token.mem_indices t.2 i).mpr hi⟩

/-- Claim C1 at the range `1-3,5,8-10`: the index set is `0,1,2,4,7,8,9`, also
with white space around the tokens. -/
theorem C1_range_parsing_witness :
    splitPdf.pageIndices "1-3,5,8-10".toList = some [0, 1, 2, 4, 7, 8, 9] ∧
      deletePages.indicesToRemove "1-3,5,8-10".toList = some [0, 1, 2, 4, 7, 8, 9] ∧
      splitPdf.pageIndices " 1-3, 5 ,\t8 - 10 ".toList = some [0, 1, 2, 4, 7, 8, 9] ∧
      ∃ indices, splitPdf.pageIndices "1-3,5,8-10".toList = some indices ∧
        deletePages.indicesToRemove "1-3,5,8-10".toList = some indices ∧
        indices.Nodup ∧
        ∀ i, i ∈ indices ↔
          ∃ t ∈ [("1-3".toList, Token.range 1 3), ("5".toList, Token.page 5),
            ("8-10".toList, Token.range 8 10)], t.2.covers i :=
  ⟨by decide, by decide, by decide,
    C1_range_parsing
      [("1-3".toList, Token.range 1 3), ("5".toList, Token.page 5),
        ("8-10".toList, Token.range 8 10)]
      (by simp)
      (by
        intro t ht
        simp only [List.mem_cons, List.mem_singleton, List.not_mem_nil, or_false] at ht
        rcases ht with rfl | rfl | rfl
        · exact WellFormed.range [] "1".toList [] [] "3".toList [] 1 3 isBlank_nil isBlank_nil
            isBlank_nil isBlank_nil (by decide) (by decide)
        · exact WellFormed.page [] "5".toList [] 5 isBlank_nil isBlank_nil (by decide)
        · exact WellFormed.range [] "8".toList [] [] "10".toList [] 8 10 isBlank_nil isBlank_nil
            isBlank_nil isBlank_nil (by decide) (by decide))⟩

/-- Claim C2, as the code has it. Delete: when the pipeline reaches `save()`, the
pages of the document are the source pages whose zero-based position is not in
the parsed index set, in their original order; `removePage` is called for every
parsed index that is a position of the original document (none is skipped by the
check against the shrinking page count), in descending order; the result depends
on the members of the index set only, not on their order. When a page is left, the
file written holds exactly these pages; when every page was removed, the file
written holds one blank page. -/
theorem C2_delete_keeps_complement {π : Type} (pdfDoc : List π) (rangeStr : JSString)
    (run : Run π) (doc : List π) (h : deletePages.process pdfDoc rangeStr = some run)
    (hs : run.result = Outcome.saved doc) :
    ∃ indices, deletePages.indicesToRemove rangeStr = some indices ∧
      doc = pagesAt pdfDoc (positionsNotIn pdfDoc.length indices) ∧
      run.calls = [Call.load] ++ ((deletePages.sortedIndices indices).filter
        (fun i => decide (0 ≤ i) && decide (i < (pdfDoc.length : Int)))).map Call.removePage
        ++ [Call.save] ∧
      (deletePages.sortedIndices indices).Pairwise (fun a b => b < a) ∧
      (∀ indices2 : List Int, indices2.Nodup → (∀ i, i ∈ indices2 ↔ i ∈ indices) →
        (deletePages.remove pdfDoc indices2).result = Outcome.saved doc ∧
        (deletePages.remove pdfDoc indices2).download = run.download) ∧
      (doc ≠ [] → run.download = some
        ((pagesAt pdfDoc (positionsNotIn pdfDoc.length indices)).map FilePage.page)) ∧
      (doc = [] → run.download = some [FilePage.blank]) := by
  obtain ⟨indices, hp, hn, hne, hrun⟩ := deletePages.delete_saved_inv pdfDoc rangeStr run doc h hs
  have hr := deletePages.remove_saved pdfDoc indices hn hne
  have hd := Run.download_saved run doc hs
  rw [hrun, hr] at hs
  simp only [Outcome.saved.injEq] at hs
  refine ⟨indices, hp, hs.symm, by rw [hrun, hr], deletePages.sortedIndices_pairwise indices hn,
    ?_, ?_, ?_⟩
  · intro indices2 hn2 hmem
    have hne2 : indices2 ≠ [] := by
      rintro rfl
      cases indices with
      | nil => exact hne rfl
      | cons a l => exact absurd ((hmem a).mpr (List.mem_cons_self _ _)) (List.not_mem_nil _)
    have hres : (deletePages.remove pdfDoc indices2).result = Outcome.saved doc := by
      rw [deletePages.remove_saved pdfDoc indices2 hn2 hne2, positionsNotIn_congr _ _ _ hmem, hs]
    exact ⟨hres, by rw [Run.download_saved _ doc hres, hd]⟩
  · intro hdoc
    rw [hd, save_of_ne_nil doc hdoc, hs]
  · intro hdoc
    rw [hd, hdoc]
    rfl

/-- Claim C2, as the code has it, at the indices 1 and 3 of a 5-page document,
given as the range `2,4` and, conversely, as `4,2`: pages 0, 2 and 4 remain and
make up the file written, index 3 being removed first. -/
theorem C2_delete_keeps_complement_witness :
    deletePages.process [0, 1, 2, 3, 4] "2,4".toList =
        some ⟨[Call.load, Call.removePage 3, Call.removePage 1, Call.save],
          Outcome.saved [0, 2, 4]⟩ ∧
      deletePages.process [0, 1, 2, 3, 4] "4,2".toList =
        some ⟨[Call.load, Call.removePage 3, Call.removePage 1, Call.save],
          Outcome.saved [0, 2, 4]⟩ ∧
      Run.download (⟨[Call.load, Call.removePage 3, Call.removePage 1, Call.save],
          Outcome.saved [0, 2, 4]⟩ : Run Nat) =
        some [FilePage.page 0, FilePage.page 2, FilePage.page 4] ∧
      ∃ indices, deletePages.indicesToRemove "2,4".toList = some indices ∧
        [0, 2, 4] = pagesAt [0, 1, 2, 3, 4] (positionsNotIn 5 indices) ∧
        [Call.load, Call.removePage 3, Call.removePage 1, Call.save] =
          [Call.load] ++ ((deletePages.sortedIndices indices).filter
            (fun i => decide (0 ≤ i) && decide (i < ((5 : Nat) : Int)))).map Call.removePage
          ++ [Call.save] ∧
        (deletePages.sortedIndices indices).Pairwise (fun a b => b < a) ∧
        (∀ indices2 : List Int, indices2.Nodup → (∀ i, i ∈ indices2 ↔ i ∈ indices) →
          (deletePages.remove [0, 1, 2, 3, 4] indices2).result = Outcome.saved [0, 2, 4] ∧
          (deletePages.remove [0, 1, 2, 3, 4] indices2).download =
            Run.download (⟨[Call.load, Call.removePage 3, Call.removePage 1, Call.save],
              Outcome.saved [0, 2, 4]⟩ : Run Nat)) ∧
        (([0, 2, 4] : List Nat) ≠ [] →
          Run.download (⟨[Call.load, Call.removePage 3, Call.removePage 1, Call.save],
              Outcome.saved [0, 2, 4]⟩ : Run Nat) =
            some ((pagesAt [0, 1, 2, 3, 4] (positionsNotIn 5 indices)).map FilePage.page)) ∧
        (([0, 2, 4] : List Nat) = [] →
          Run.download (⟨[Call.load, Call.removePage 3, Call.removePage 1, Call.save],
              Outcome.saved [0, 2, 4]⟩ : Run Nat) = some [FilePage.blank]) :=
  ⟨by decide, by decide, by decide,
    C2_delete_keeps_complement [0, 1, 2, 3, 4] "2,4".toList
      ⟨[Call.load, Call.removePage 3, Call.removePage 1, Call.save], Outcome.saved [0, 2, 4]⟩
      [0, 2, 4] (by decide) rfl⟩

/-- Claim C2 as stated fails at the range `1-3` on a 3-page document: the pipeline
succeeds, every page is removed, so no source page is outside the parsed set, yet
the file written is not the empty sequence of pages: it holds one blank page. -/
theorem C2_delete_all_pages_writes_blank :
    deletePages.process [0, 1, 2] "1-3".toList =
      some ⟨[Call.load, Call.removePage 2, Call.removePage 1, Call.removePage 0, Call.save],
        Outcome.saved []⟩ ∧
    deletePages.indicesToRemove "1-3".toList = some [0, 1, 2] ∧
    pagesAt [0, 1, 2] (positionsNotIn 3 [0, 1, 2]) = [] ∧
    (deletePages.process [0, 1, 2] "1-3".toList).map Run.download =
      some (some [FilePage.blank]) ∧
    (deletePages.process [0, 1, 2] "1-3".toList).map Run.download ≠
      some (some ((pagesAt [0, 1, 2] (positionsNotIn 3 [0, 1, 2])).map FilePage.page)) := by
  decide

/-- Claim C3. Split validation: the indices passed to `copyPages` are the parsed
indices `i` with `0 <= i < pageCount`, in their order, nothing dropped besides the
indices below 0 or from `pageCount` on and nothing added; Split throws the error
`No valid pages were selected.` exactly when that list is empty, and otherwise
calls `copyPages` with it. -/
theorem C3_split_index_validation {π : Type} (pdf : List π) (pageIndices : List Int) :
    (∀ i, i ∈ splitPdf.validIndices pageIndices pdf.length ↔
      i ∈ pageIndices ∧ 0 ≤ i ∧ i < (pdf.length : Int)) ∧
    (splitPdf.validIndices pageIndices pdf.length).Sublist pageIndices ∧
    ((splitPdf.extract pdf pageIndices).result = Outcome.threw PipelineError.noValidPages ↔
      splitPdf.validIndices pageIndices pdf.length = []) ∧
    (∀ l, Call.copyPages l ∈ (splitPdf.extract pdf pageIndices).calls →
      l = splitPdf.validIndices pageIndices pdf.length) ∧
    (splitPdf.validIndices pageIndices pdf.length ≠ [] →
      Call.copyPages (splitPdf.validIndices pageIndices pdf.length) ∈
        (splitPdf.extract pdf pageIndices).calls) := by
  have hmem : ∀ i, i ∈ splitPdf.validIndices pageIndices pdf.length ↔
      i ∈ pageIndices ∧ 0 ≤ i ∧ i < (pdf.length : Int) := by
    intro i
    simp [splitPdf.validIndices, List.mem_filter]
  obtain ⟨pages, hp, -⟩ := copyPages_of_valid pdf (splitPdf.validIndices pageIndices pdf.length)
    (fun i hi => ((hmem i).mp hi).2)
  refine ⟨hmem, List.filter_sublist _, ?_, ?_, ?_⟩
  · by_cases he : splitPdf.validIndices pageIndices pdf.length = []
    · simp [splitPdf.extract, he]
    · simp [splitPdf.extract, he, hp]
  · intro l hl
    by_cases he : splitPdf.validIndices pageIndices pdf.length = []
    · simp [splitPdf.extract, he] at hl
    · simpa [splitPdf.extract, he, hp] using hl
  · intro he
    simp [splitPdf.extract, he, hp]

/-- Claim C3 at the index set `0,1,2` with 2 pages, which keeps `0,1`, and at the
index set `5,6` with 3 pages, where Split throws `No valid pages were selected.` -/
theorem C3_split_index_validation_witness :
    splitPdf.validIndices [0, 1, 2] 2 = [0, 1] ∧
    (splitPdf.extract ["P0", "P1"] [0, 1, 2]).result = Outcome.saved ["P0", "P1"] ∧
    splitPdf.validIndices [5, 6] 3 = [] ∧
    (splitPdf.extract ["P0", "P1", "P2"] [5, 6]).result =
      Outcome.threw PipelineError.noValidPages ∧
    ((splitPdf.extract ["P0", "P1", "P2"] [5, 6]).result =
        Outcome.threw PipelineError.noValidPages ↔
      splitPdf.validIndices [5, 6] ["P0", "P1", "P2"].length = []) :=
  ⟨by decide, by decide, by decide, by decide,
    (C3_split_index_validation ["P0", "P1", "P2"] [5, 6]).2.2.1⟩

/-- Claim C4 at its failing input. For the range `99` on a 3-page document no index
is valid, yet Delete throws nothing and saves the document unchanged, where Split
throws `No valid pages were selected.`; Delete throws its `No valid pages` error
only when the parsed set itself is empty, as for the range `x`. In general, when
the parsed set is not empty and none of its indices is a page of the document,
Delete makes no `removePage` call and saves the document as it was loaded. -/
theorem C4_delete_out_of_range_saves :
    deletePages.process [0, 1, 2] "99".toList =
      some ⟨[Call.load, Call.save], Outcome.saved [0, 1, 2]⟩ ∧
    splitPdf.process [0, 1, 2] "99".toList =
      some ⟨[Call.load, Call.create], Outcome.threw PipelineError.noValidPages⟩ ∧
    deletePages.process [0, 1, 2] "x".toList =
      some ⟨[Call.load], Outcome.threw PipelineError.noValidPagesForDeletion⟩ ∧
    ∀ (π : Type) (pdfDoc : List π) (rangeStr : JSString) (indices : List Int),
      rangeStr ≠ [] → deletePages.indicesToRemove rangeStr = some indices → indices ≠ [] →
      (∀ i ∈ indices, i < 0 ∨ (pdfDoc.length : Int) ≤ i) →
      deletePages.process pdfDoc rangeStr =
        some ⟨[Call.load, Call.save], Outcome.saved pdfDoc⟩ := by
  refine ⟨by decide, by decide, by decide, ?_⟩
  intro π pdfDoc rangeStr indices hne hp hi hout
  have hn : indices.Nodup := by
    rw [deletePages.indicesToRemove_eq] at hp
    exact splitPdf.pageIndices_nodup rangeStr indices hp
  simp only [deletePages.process, hne, if_false, hp,
    deletePages.remove_all_invalid pdfDoc indices hn hi hout]

/-- Claim C5, as the code has it. For the empty range both Split and Delete throw
`Page range is required.` (an error distinct from the two `No valid pages` errors)
with no call made on the document model, so before the document is loaded; a run
of either throws that error only for the empty range. A range of white space only
passes the check: the document is loaded, and Split then throws
`No valid pages were selected.` -/
theorem C5_empty_range_rejected {π : Type} (pdf : List π) :
    splitPdf.process pdf [] = some ⟨[], Outcome.threw PipelineError.rangeRequired⟩ ∧
    deletePages.process pdf [] = some ⟨[], Outcome.threw PipelineError.rangeRequired⟩ ∧
    PipelineError.rangeRequired.message = "Page range is required." ∧
    PipelineError.rangeRequired ≠ PipelineError.noValidPages ∧
    PipelineError.rangeRequired ≠ PipelineError.noValidPagesForDeletion ∧
    (∀ (rangeStr : JSString) (run : Run π), splitPdf.process pdf rangeStr = some run →
      (run.result = Outcome.threw PipelineError.rangeRequired ↔ rangeStr = [])) ∧
    (∀ (rangeStr : JSString) (run : Run π), deletePages.process pdf rangeStr = some run →
      (run.result = Outcome.threw PipelineError.rangeRequired ↔ rangeStr = [])) ∧
    (∀ rangeStr : JSString, rangeStr ≠ [] → IsBlank rangeStr →
      splitPdf.process pdf rangeStr =
        some ⟨[Call.load, Call.create], Outcome.threw PipelineError.noValidPages⟩) := by
  refine ⟨by simp [splitPdf.process], by simp [deletePages.process], rfl, by decide, by decide,
    ?_, ?_, ?_⟩
  · intro rangeStr run h
    by_cases he : rangeStr = []
    · subst he
      simp only [splitPdf.process, if_true, Option.some.injEq] at h
      simp [← h]
    · simp only [splitPdf.process, he, if_false] at h
      cases hp : splitPdf.pageIndices rangeStr with
      | none => simp [hp] at h
      | some indices =>
        simp only [hp, Option.some.injEq] at h
        simp [← h, he, splitPdf.extract_ne_rangeRequired]
  · intro rangeStr run h
    by_cases he : rangeStr = []
    · subst he
      simp only [deletePages.process, if_true, Option.some.injEq] at h
      simp [← h]
    · simp only [deletePages.process, he, if_false] at h
      cases hp : deletePages.indicesToRemove rangeStr with
      | none => simp [hp] at h
      | some indices =>
        simp only [hp, Option.some.injEq] at h
        simp [← h, he, deletePages.remove_ne_rangeRequired]
  · intro rangeStr hne hb
    simp [splitPdf.process, hne, pageIndices_blank rangeStr hb, splitPdf.extract,
      splitPdf.validIndices]

/-- Claim C5 as stated fails at the range of one space: it is white space only,
yet on a 3-page document Split loads the document and throws
`No valid pages were selected.`, and Delete loads and saves the document. -/
theorem C5_whitespace_range_not_rejected :
    IsBlank " ".toList ∧
    splitPdf.process [0, 1, 2] " ".toList =
      some ⟨[Call.load, Call.create], Outcome.threw PipelineError.noValidPages⟩ ∧
    deletePages.process [0, 1, 2] " ".toList =
      some ⟨[Call.load, Call.save], Outcome.saved [0, 1, 2]⟩ := by
  refine ⟨?_, by decide, by decide⟩
  intro c hc
  simp only [String.toList, List.mem_singleton] at hc
  subst hc
  decide

/-- Claim C6 at its failing inputs. The token `-3` adds the indices -1 to 2, the
token `1-2-3` adds 0 and 1, and an empty token adds -1, so that `1,,2` and `1,2`
give different sets; Split of a 5-page document by `-3` emits its first three
pages. A token with a non-numeric end, and `3-`, add nothing. -/
theorem C6_malformed_tokens_add_indices :
    splitPdf.pageIndices "-3".toList = some [-1, 0, 1, 2] ∧
    splitPdf.pageIndices "1-2-3".toList = some [0, 1] ∧
    splitPdf.pageIndices ",".toList = some [-1] ∧
    splitPdf.pageIndices "1,,2".toList = some [0, -1, 1] ∧
    splitPdf.pageIndices "1,2".toList = some [0, 1] ∧
    deletePages.indicesToRemove "-3".toList = some [-1, 0, 1, 2] ∧
    splitPdf.process [1, 2, 3, 4, 5] "-3".toList =
      some ⟨[Call.load, Call.create, Call.copyPages [0, 1, 2], Call.addPage, Call.addPage,
        Call.addPage, Call.save], Outcome.saved [1, 2, 3]⟩ ∧
    splitPdf.pageIndices "a-3".toList = some [] ∧
    splitPdf.pageIndices "3-".toList = some [] := by
  decide

/-- Claim C7. Merge: the document saved has the pages of the inputs, concatenated
in the order the inputs are supplied, each input's pages in their own order and
unaltered; its page count is the sum of the inputs' page counts; page `k` of input
`j` is the output page at `k` plus the page counts of the inputs before `j`. -/
theorem C7_merge_concatenates {π : Type} (files : List (List π)) :
    ∃ out, (mergePdf.process files).result = Outcome.saved out ∧
      out = files.flatten ∧
      out.length = (files.map List.length).sum ∧
      ∀ (j k : Nat) (pdf : List π) (page : π), files[j]? = some pdf → pdf[k]? = some page →
        out[((files.take j).map List.length).sum + k]? = some page := by
  refine ⟨files.flatten, ?_, rfl, List.length_flatten _, ?_⟩
  · simpa [mergePdf.process] using mergePdf.loop_result files [] [Call.create]
  · intro j k pdf page hj hk
    exact flatten_getElem?_offset files j k pdf page hj hk

/-- Claim C7 on inputs of 2, 3 and 1 pages: 6 pages, the first two from input 1,
the next three from input 2, the last from input 3. -/
theorem C7_merge_concatenates_witness :
    (mergePdf.process [["a0", "a1"], ["b0", "b1", "b2"], ["c0"]]).result =
        Outcome.saved ["a0", "a1", "b0", "b1", "b2", "c0"] ∧
      ∃ out, (mergePdf.process [["a0", "a1"], ["b0", "b1", "b2"], ["c0"]]).result =
          Outcome.saved out ∧
        out = [["a0", "a1"], ["b0", "b1", "b2"], ["c0"]].flatten ∧
        out.length = ([["a0", "a1"], ["b0", "b1", "b2"], ["c0"]].map List.length).sum ∧
        ∀ (j k : Nat) (pdf : List String) (page : String),
          [["a0", "a1"], ["b0", "b1", "b2"], ["c0"]][j]? = some pdf → pdf[k]? = some page →
          out[(([["a0", "a1"], ["b0", "b1", "b2"], ["c0"]].take j).map List.length).sum + k]? =
            some page :=
  ⟨by decide, C7_merge_concatenates [["a0", "a1"], ["b0", "b1", "b2"], ["c0"]]⟩

/-- Claim C8. Split: when the pipeline saves a document, its pages are the pages at
the valid indices among those added while reading the range left to right, each
index once, ordered by the place of its first occurrence in that reading (not by
page number). -/
theorem C8_split_first_occurrence_order {π : Type} (pdf : List π) (rangeStr : JSString)
    (run : Run π) (out : List π) (h : splitPdf.process pdf rangeStr = some run)
    (hs : run.result = Outcome.saved out) :
    ∃ raw valid : List Int, addedBy rangeStr = some raw ∧
      out.map some = valid.map (fun i => pdf[i.toNat]?) ∧
      (∀ i, i ∈ valid ↔ i ∈ raw ∧ 0 ≤ i ∧ i < (pdf.length : Int)) ∧
      valid.Nodup ∧
      valid.Pairwise (fun i j => raw.indexOf i < raw.indexOf j) ∧
      ∀ tokens : List (JSString × Token), tokens ≠ [] → (∀ t ∈ tokens, WellFormed t.1 t.2) →
        rangeStr = commaSeparated (tokens.map Prod.fst) →
        raw = (tokens.map (fun t => t.2.indices)).flatten := by
  obtain ⟨indices, hp, hrun⟩ := splitPdf.split_saved_inv pdf rangeStr run out h hs
  rw [hrun] at hs
  rw [splitPdf.pageIndices_eq] at hp
  cases hr : addedBy rangeStr with
  | none => simp [hr] at hp
  | some raw =>
    simp only [hr, Option.map_some', Option.some.injEq] at hp
    subst hp
    refine ⟨raw, splitPdf.validIndices (raw.foldl setAdd []) pdf.length, rfl,
      splitPdf.extract_saved pdf _ out hs, ?_, ?_, ?_, ?_⟩
    · intro i
      rw [splitPdf.validIndices_mem, mem_foldl_setAdd]
      simp
    · exact (nodup_foldl_setAdd raw [] List.nodup_nil).filter _
    · exact (pairwise_foldl_setAdd raw).filter _
    · intro tokens hne hwf hstr
      rw [hstr, addedBy_wellFormed tokens hne hwf] at hr
      exact (Option.some.inj hr).symm

/-- Claim C8 at the range `5,1-3` on a 6-page document: pages 5, 1, 2, 3 (from 1)
are emitted in that order, an index repeated in the range (`5,1-3,2,5`) being
emitted once; and at the range `2,4-6` on a 10-page document: pages 2, 4, 5, 6. -/
theorem C8_split_first_occurrence_order_witness :
    splitPdf.process [1, 2, 3, 4, 5, 6] "5,1-3".toList =
        some ⟨[Call.load, Call.create, Call.copyPages [4, 0, 1, 2], Call.addPage, Call.addPage,
          Call.addPage, Call.addPage, Call.save], Outcome.saved [5, 1, 2, 3]⟩ ∧
      (splitPdf.process [1, 2, 3, 4, 5, 6] "5,1-3,2,5".toList).map (fun run => run.result) =
        some (Outcome.saved [5, 1, 2, 3]) ∧
      (splitPdf.process [1, 2, 3, 4, 5, 6, 7, 8, 9, 10] "2,4-6".toList).map
          (fun run => run.result) = some (Outcome.saved [2, 4, 5, 6]) ∧
      addedBy "5,1-3,2,5".toList = some [4, 0, 1, 2, 1, 4] ∧
      ∃ raw valid : List Int, addedBy "5,1-3".toList = some raw ∧
        [5, 1, 2, 3].map some = valid.map (fun i => [1, 2, 3, 4, 5, 6][i.toNat]?) ∧
        (∀ i, i ∈ valid ↔ i ∈ raw ∧ 0 ≤ i ∧ i < (([1, 2, 3, 4, 5, 6].length : Nat) : Int)) ∧
        valid.Nodup ∧
        valid.Pairwise (fun i j => raw.indexOf i < raw.indexOf j) ∧
        ∀ tokens : List (JSString × Token), tokens ≠ [] →
          (∀ t ∈ tokens, WellFormed t.1 t.2) →
          "5,1-3".toList = commaSeparated (tokens.map Prod.fst) →
          raw = (tokens.map (fun t => t.2.indices)).flatten :=
  ⟨by decide, by decide, by decide, by decide,
    C8_split_first_occurrence_order [1, 2, 3, 4, 5, 6] "5,1-3".toList
      ⟨[Call.load, Call.create, Call.copyPages [4, 0, 1, 2], Call.addPage, Call.addPage,
        Call.addPage, Call.addPage, Call.save], Outcome.saved [5, 1, 2, 3]⟩
      [5, 1, 2, 3] (by decide) rfl⟩

/-- Claim C9. Compress: the output has as many pages as the source; output page
`k` (from 0) is built from source page number `k + 1` rendered at scale 1.5, its
width and height are those of the rendered viewport and the image is drawn at the
origin over the whole page; the page count and the page dimensions do not depend
on the quality. -/
theorem C9_compress_structure {π ι : Type} (r : Renderer π ι) (pdf : List π) (q1 q2 : ℚ) :
    (∃ out, compressPdf.process r pdf q1 = Outcome.saved out ∧ out.length = pdf.length ∧
      ∀ k, k < pdf.length → ∃ page p, getPage pdf (k + 1) = some page ∧ out[k]? = some p ∧
        p.width = (r.getViewport page 1.5).width ∧
        p.height = (r.getViewport page 1.5).height ∧
        p.image = r.renderJpeg page (r.getViewport page 1.5) q1 ∧
        p.x = 0 ∧ p.y = 0 ∧ p.drawWidth = p.width ∧ p.drawHeight = p.height) ∧
    (∃ out1 out2, compressPdf.process r pdf q1 = Outcome.saved out1 ∧
      compressPdf.process r pdf q2 = Outcome.saved out2 ∧ out1.length = out2.length ∧
      out1.map (fun p => (p.width, p.height)) = out2.map (fun p => (p.width, p.height))) := by
  have key : ∀ q, compressPdf.process r pdf q = Outcome.saved (pdf.map (fun page =>
      (⟨(r.getViewport page 1.5).width, (r.getViewport page 1.5).height,
        r.renderJpeg page (r.getViewport page 1.5) q, 0, 0,
        (r.getViewport page 1.5).width, (r.getViewport page 1.5).height⟩ : ImagePage ι))) := by
    intro q
    have := compressPdf.loop_eq r pdf q (pdf.length + 1 - 1) [] 1 (le_refl 1) (by omega)
    simpa [compressPdf.process] using this
  refine ⟨⟨_, key q1, by simp, ?_⟩, ⟨_, _, key q1, key q2, by simp, by simp⟩⟩
  intro k hk
  refine ⟨pdf[k], ⟨(r.getViewport pdf[k] 1.5).width, (r.getViewport pdf[k] 1.5).height,
    r.renderJpeg pdf[k] (r.getViewport pdf[k] 1.5) q1, 0, 0,
    (r.getViewport pdf[k] 1.5).width, (r.getViewport pdf[k] 1.5).height⟩,
    ?_, ?_, rfl, rfl, rfl, rfl, rfl, rfl, rfl⟩
  · simp [getPage, List.getElem?_eq_getElem hk]
  · simp [List.getElem?_eq_getElem hk]

/-- Claim C9 on a 2-page document, with a renderer whose viewport is the page's
size times the scale, at the qualities 0.3 and 0.7: two pages of the same
dimensions. -/
theorem C9_compress_structure_witness :
    compressPdf.process
        (⟨fun p s => ⟨p.1 * s, p.2 * s⟩, fun p _ q => (p, q)⟩ : Renderer (ℚ × ℚ) ((ℚ × ℚ) × ℚ))
        [(200, 100), (400, 300)] 0.7 =
      Outcome.saved [⟨300, 150, ((200, 100), 0.7), 0, 0, 300, 150⟩,
        ⟨600, 450, ((400, 300), 0.7), 0, 0, 600, 450⟩] ∧
    ∃ out1 out2,
      compressPdf.process
          (⟨fun p s => ⟨p.1 * s, p.2 * s⟩, fun p _ q => (p, q)⟩ :
            Renderer (ℚ × ℚ) ((ℚ × ℚ) × ℚ))
          [(200, 100), (400, 300)] 0.3 = Outcome.saved out1 ∧
      compressPdf.process
          (⟨fun p s => ⟨p.1 * s, p.2 * s⟩, fun p _ q => (p, q)⟩ :
            Renderer (ℚ × ℚ) ((ℚ × ℚ) × ℚ))
          [(200, 100), (400, 300)] 0.7 = Outcome.saved out2 ∧
      out1.length = out2.length ∧
      out1.map (fun p => (p.width, p.height)) = out2.map (fun p => (p.width, p.height)) :=
  ⟨by norm_num [compressPdf.process, compressPdf.loop, getPage],
    (C9_compress_structure
      (⟨fun p s => ⟨p.1 * s, p.2 * s⟩, fun p _ q => (p, q)⟩ : Renderer (ℚ × ℚ) ((ℚ × ℚ) × ℚ))
      [(200, 100), (400, 300)] 0.3 0.7).2⟩

/-- Claim C10, as the code has it. The parser inlined in Delete computes the same
index set as the one inlined in Split, for every range; and when both pipelines
reach `save()` for the same input, the pages of Split's document are the pages at
the positions in that set, the pages of Delete's document are the pages at the
other positions, and Delete's `removePage` calls are the indices Split passes to
`copyPages`. Split's file holds its document's pages. When Delete leaves a page,
its file holds its document's pages, every source page is in exactly one of the
two files and the two page counts add up to the source's; when Delete removes
every page, its file holds one blank page, Split's file holds every source page,
and the two page counts add up to one more than the source's. -/
theorem C10_split_delete_complementary :
    (∀ rangeStr : JSString,
      deletePages.indicesToRemove rangeStr = splitPdf.pageIndices rangeStr) ∧
    (∀ (π : Type) (pdf : List π) (rangeStr : JSString) (runS runD : Run π)
      (docS docD : List π),
      splitPdf.process pdf rangeStr = some runS → deletePages.process pdf rangeStr = some runD →
      runS.result = Outcome.saved docS → runD.result = Outcome.saved docD →
      ∃ (indices : List Int) (fileS fileD : List (FilePage π)),
        splitPdf.pageIndices rangeStr = some indices ∧
        runS.download = some fileS ∧ runD.download = some fileD ∧
        docS.Perm (pagesAt pdf (positionsIn pdf.length indices)) ∧
        docD = pagesAt pdf (positionsNotIn pdf.length indices) ∧
        Call.copyPages (splitPdf.validIndices indices pdf.length) ∈ runS.calls ∧
        (∀ i : Int, Call.removePage i ∈ runD.calls ↔
          i ∈ splitPdf.validIndices indices pdf.length) ∧
        fileS = docS.map FilePage.page ∧
        (docD ≠ [] → fileD = docD.map FilePage.page ∧
          (fileS ++ fileD).Perm (pdf.map FilePage.page) ∧
          fileS.length + fileD.length = pdf.length) ∧
        (docD = [] → fileD = [FilePage.blank] ∧
          fileS.Perm (pdf.map FilePage.page) ∧
          fileS.length + fileD.length = pdf.length + 1)) := by
  refine ⟨deletePages.indicesToRemove_eq, ?_⟩
  intro π pdf rangeStr runS runD docS docD hS hD hs hd
  have hfS := Run.download_saved runS docS hs
  have hfD := Run.download_saved runD docD hd
  obtain ⟨indices, hp, hrun⟩ := splitPdf.split_saved_inv pdf rangeStr runS docS hS hs
  obtain ⟨indices2, hp2, hn, hne, hrun2⟩ :=
    deletePages.delete_saved_inv pdf rangeStr runD docD hD hd
  rw [deletePages.indicesToRemove_eq, hp] at hp2
  simp only [Option.some.injEq] at hp2
  subst hp2
  have hcallsD : ∀ i : Int, Call.removePage i ∈ runD.calls ↔
      i ∈ splitPdf.validIndices indices pdf.length := by
    intro i
    rw [hrun2, deletePages.remove_saved pdf indices hn hne, splitPdf.validIndices_mem]
    simp [List.mem_filter, deletePages.sortedIndices_mem]
  rw [hrun2, deletePages.remove_saved pdf indices hn hne] at hd
  simp only [Outcome.saved.injEq] at hd
  rw [hrun] at hs
  have hcallsS : Call.copyPages (splitPdf.validIndices indices pdf.length) ∈ runS.calls := by
    rw [hrun]
    exact splitPdf.extract_calls pdf indices docS hs
  have hneS : docS ≠ [] := splitPdf.extract_saved_ne_nil pdf indices docS hs
  have hS1 := eq_filterMap_of_map_some _ _ _ (splitPdf.extract_saved pdf indices docS hs)
  have hS2 : docS = pagesAt pdf ((splitPdf.validIndices indices pdf.length).map Int.toNat) := by
    rw [hS1, pagesAt, List.filterMap_map]
    rfl
  have hperm : docS.Perm (pagesAt pdf (positionsIn pdf.length indices)) := by
    rw [hS2]
    exact (validIndices_toNat_perm indices pdf.length hn).filterMap _
  have hall : (docS ++ docD).Perm pdf := by
    have h1 : (docS ++ docD).Perm (pagesAt pdf (positionsIn pdf.length indices) ++
        pagesAt pdf (positionsNotIn pdf.length indices)) := by
      rw [← hd]
      exact hperm.append_right _
    have h2 : (pagesAt pdf (positionsIn pdf.length indices) ++
        pagesAt pdf (positionsNotIn pdf.length indices)).Perm pdf := by
      have := (positions_perm pdf.length indices).filterMap (fun k => pdf[k]?)
      rw [List.filterMap_append] at this
      have h3 := pagesAt_range pdf
      unfold pagesAt at h3 ⊢
      rwa [h3] at this
    exact h1.trans h2
  refine ⟨indices, save docS, save docD, hp, hfS, hfD, hperm, hd.symm, hcallsS, hcallsD,
    save_of_ne_nil docS hneS, ?_, ?_⟩
  · intro hneD
    rw [save_of_ne_nil docS hneS, save_of_ne_nil docD hneD]
    refine ⟨rfl, ?_, ?_⟩
    · rw [← List.map_append]
      exact hall.map _
    · have := hall.length_eq
      simpa using this
  · intro hD0
    subst hD0
    rw [save_of_ne_nil docS hneS]
    refine ⟨rfl, ?_, ?_⟩
    · have := hall.map FilePage.page
      simpa using this
    · have := hall.length_eq
      simp only [List.append_nil] at this
      simp [save, this]

/-- Claim C10, as the code has it, on a 5-page document and the range `2,4`: Split's
file holds pages 1 and 3 (from 0), Delete's file holds pages 0, 2 and 4. -/
theorem C10_split_delete_complementary_witness :
    splitPdf.process [0, 1, 2, 3, 4] "2,4".toList =
        some ⟨[Call.load, Call.create, Call.copyPages [1, 3], Call.addPage, Call.addPage,
          Call.save], Outcome.saved [1, 3]⟩ ∧
      deletePages.process [0, 1, 2, 3, 4] "2,4".toList =
        some ⟨[Call.load, Call.removePage 3, Call.removePage 1, Call.save],
          Outcome.saved [0, 2, 4]⟩ ∧
      (splitPdf.process [0, 1, 2, 3, 4] "2,4".toList).map Run.download =
        some (some [FilePage.page 1, FilePage.page 3]) ∧
      (deletePages.process [0, 1, 2, 3, 4] "2,4".toList).map Run.download =
        some (some [FilePage.page 0, FilePage.page 2, FilePage.page 4]) ∧
      ∃ (indices : List Int) (fileS fileD : List (FilePage Nat)),
        splitPdf.pageIndices "2,4".toList = some indices ∧
        Run.download (⟨[Call.load, Call.create, Call.copyPages [1, 3], Call.addPage,
          Call.addPage, Call.save], Outcome.saved [1, 3]⟩ : Run Nat) = some fileS ∧
        Run.download (⟨[Call.load, Call.removePage 3, Call.removePage 1, Call.save],
          Outcome.saved [0, 2, 4]⟩ : Run Nat) = some fileD ∧
        [1, 3].Perm (pagesAt [0, 1, 2, 3, 4] (positionsIn 5 indices)) ∧
        [0, 2, 4] = pagesAt [0, 1, 2, 3, 4] (positionsNotIn 5 indices) ∧
        Call.copyPages (splitPdf.validIndices indices 5) ∈
          [Call.load, Call.create, Call.copyPages [1, 3], Call.addPage, Call.addPage,
            Call.save] ∧
        (∀ i : Int, Call.removePage i ∈
            [Call.load, Call.removePage 3, Call.removePage 1, Call.save] ↔
          i ∈ splitPdf.validIndices indices 5) ∧
        fileS = [1, 3].map FilePage.page ∧
        (([0, 2, 4] : List Nat) ≠ [] → fileD = [0, 2, 4].map FilePage.page ∧
          (fileS ++ fileD).Perm ([0, 1, 2, 3, 4].map FilePage.page) ∧
          fileS.length + fileD.length = [0, 1, 2, 3, 4].length) ∧
        (([0, 2, 4] : List Nat) = [] → fileD = [FilePage.blank] ∧
          fileS.Perm ([0, 1, 2, 3, 4].map FilePage.page) ∧
          fileS.length + fileD.length = [0, 1, 2, 3, 4].length + 1) :=
  ⟨by decide, by decide, by decide, by decide,
    C10_split_delete_complementary.2 Nat [0, 1, 2, 3, 4] "2,4".toList
      ⟨[Call.load, Call.create, Call.copyPages [1, 3], Call.addPage, Call.addPage, Call.save],
        Outcome.saved [1, 3]⟩
      ⟨[Call.load, Call.removePage 3, Call.removePage 1, Call.save], Outcome.saved [0, 2, 4]⟩
      [1, 3] [0, 2, 4] (by decide) (by decide) rfl rfl⟩

/-- Claim C10 as stated fails at the range `1-3` on a 3-page document: both
pipelines succeed, Split's file holds the 3 source pages and Delete's file holds
one blank page, which is no source page, so the page counts add up to 4. -/
theorem C10_all_pages_counts_exceed_source :
    (splitPdf.process [0, 1, 2] "1-3".toList).map Run.download =
      some (some [FilePage.page 0, FilePage.page 1, FilePage.page 2]) ∧
    (deletePages.process [0, 1, 2] "1-3".toList).map Run.download =
      some (some [FilePage.blank]) ∧
    [FilePage.page 0, FilePage.page 1, FilePage.page 2].length +
      ([FilePage.blank] : List (FilePage Nat)).length ≠ [0, 1, 2].length ∧
    (FilePage.blank : FilePage Nat) ∉ [0, 1, 2].map FilePage.page := by
  decide

end IdolovePdf
